import Mathlib

/-!
Verification of the neighborhood window iterator of the `visionlab`
teaching notebooks (`iter_kernel` / `iter_pixels` / `bounded_slice`,
`mean_filter_demo`, `imshow_all`).

Images are embedded as rectangular lists of lists of rationals
(`Mat ℚ`): the notebook's float arrays are modelled exactly over ℚ, and
the `int16` mask arrays are embedded in ℚ as well (all mask values are
0, 1 or 2, far below any overflow).  Python's `max(i - size, 0)` clamp
coincides with Lean's truncating `Nat` subtraction, which is used
throughout.
-/

namespace VisionLab

/-- A 2-D array: a list of rows. -/
abbrev Mat (α : Type) := List (List α)

/-- Element read `m[i, j]` with a default for out-of-range indices. -/
def matGetD {α : Type} (m : Mat α) (i j : Nat) (d : α) : α :=
  (m.getD i []).getD j d

/-- `shape[0]` of a 2-D array. -/
def matHeight {α : Type} (m : Mat α) : Nat := m.length

/-- `shape[1]` of a 2-D array (length of the first row). -/
def matWidth {α : Type} (m : Mat α) : Nat := (m.headD []).length

/-- The list of lists `m` is a rectangular `h × w` array. -/
def Rect {α : Type} (m : Mat α) (h w : Nat) : Prop :=
  m.length = h ∧ ∀ r ∈ m, r.length = w

instance {α : Type} (m : Mat α) (h w : Nat) : Decidable (Rect m h w) := by
  unfold Rect; infer_instance

/-- `np.zeros((h, w))`. -/
def zerosMat (h w : Nat) : Mat ℚ :=
  List.replicate h (List.replicate w 0)

/-- In-place element write `m[i, j] = v`, as a functional update. -/
def setMat {α : Type} (m : Mat α) (i j : Nat) (v : α) : Mat α :=
  m.set i ((m.getD i []).set j v)

/-- Source `bounded_slice(center, xy_max, size, i_min)`: one `(start, stop)`
pair per axis, `slice(max(i - size, i_min), min(i + size + 1, i_max))`.
Python's `max(i - size, i_min)` on ints equals `max (i - size) i_min` on
`Nat` because `i_min ≥ 0` and `Nat` subtraction truncates at 0. -/
def bounded_slice (center xy_max : List Nat) (size i_min : Nat) : List (Nat × Nat) :=
  List.zipWith (fun i i_max => (max (i - size) i_min, min (i + size + 1) i_max)) center xy_max

/-- Numpy 1-D basic slice `l[lo:hi]`. -/
def sliceList {α : Type} (l : List α) (s : Nat × Nat) : List α :=
  (l.drop s.1).take (s.2 - s.1)

/-- Numpy 2-D basic slicing `m[rs, cs]` by a list of two slices (the only
arity `iter_kernel` produces). -/
def applySlices {α : Type} (m : Mat α) (sl : List (Nat × Nat)) : Mat α :=
  match sl with
  | [rs, cs] => (sliceList m rs).map (fun row => sliceList row cs)
  | _ => []

/-- Build an `h × w` array from an entry function. -/
def tabulate (h w : Nat) (f : Nat → Nat → ℚ) : Mat ℚ :=
  (List.range h).map fun r => (List.range w).map fun c => f r c

/-- Model of the external `scipy.ndimage.grey_dilation(m, size=width)` with a
flat square structuring element of odd side `width = 2*s + 1`: each output
cell is the maximum of the input over the square window of half-width `s`
clamped to the array bounds.  (scipy's default `reflect` boundary mode gives
exactly the clamped-window maximum for a flat full-square element, since every
reflected index within reach is an in-bounds index that is itself within
reach.)  Only used on arrays with non-negative entries, where the `0` fold
seed is neutral. -/
def greyDilation (m : Mat ℚ) (width : Nat) : Mat ℚ :=
  let s := width / 2
  let h := matHeight m
  let w := matWidth m
  tabulate h w fun r c =>
    (((List.range h).filter (fun a => (r - s ≤ a) && (a ≤ r + s))).flatMap fun a =>
      ((List.range w).filter (fun b => (c - s ≤ b) && (b ≤ c + s))).map fun b =>
        matGetD m a b 0).foldr max 0

/-- The mask built by the body of `iter_kernel` for center `(i, j)` on an
`h × w` image, following the source line by line:
`width = 2*size + 1`; `mask = np.zeros(image.shape, dtype='int16')`;
`mask[i, j] = 1`; `mask = ndi.grey_dilation(mask, size=width)`;
`mask[i, j] = 2`. -/
def kernelMask (h w size i j : Nat) : Mat ℚ :=
  let width := 2 * size + 1
  let mask := setMat (zerosMat h w) i j 1
  let mask := setMat (greyDilation mask width) i j 2
  mask

/-- Source `iter_pixels(image)`: yield `((i, j), image[i, j])` for
`i in range(height)`, `j in range(width)`. -/
def iter_pixels (image : Mat ℚ) : List ((Nat × Nat) × ℚ) :=
  let height := matHeight image
  let width := matWidth image
  (List.range height).flatMap fun i =>
    (List.range width).map fun j => ((i, j), matGetD image i j 0)

/-- Source `iter_kernel(image, size)` as the list of yielded triples
`((i, j), mask, subimage)`, with
`subimage = image[bounded_slice((i, j), image.shape[:2], size=size)]`. -/
def iter_kernel (image : Mat ℚ) (size : Nat) : List ((Nat × Nat) × Mat ℚ × Mat ℚ) :=
  let h := matHeight image
  let w := matWidth image
  (iter_pixels image).map fun x =>
    (x.1, kernelMask h w size x.1.1 x.1.2,
      applySlices image (bounded_slice [x.1.1, x.1.2] [h, w] size 0))

/-- Direct clamped-range mask construction, following the words of spec §4.1:
a fresh zero array of the image's shape, `1` on the clamped square
neighborhood `max(i-size,0) ≤ r < min(i+size+1,h)`,
`max(j-size,0) ≤ c < min(j+size+1,w)`, then `2` at the center `(i, j)`. -/
def maskDirect (h w size i j : Nat) : Mat ℚ :=
  tabulate h w fun r c =>
    if r = i ∧ c = j then 2
    else if i - size ≤ r ∧ r < i + size + 1 ∧ j - size ≤ c ∧ c < j + size + 1 then 1
    else 0

/-- Row-major enumeration of all positions of an `h × w` grid. -/
def rowMajor (h w : Nat) : List (Nat × Nat) :=
  (List.range h).flatMap fun i => (List.range w).map fun j => (i, j)

/-- Python-level error conditions relevant to the notebook code. -/
inductive PyErr where
  | valueError
  | invalidArgument
  | indexError
  | stopIteration
deriving DecidableEq, Repr

/-- Model of `scipy.ndimage.grey_dilation(m, size=width)` for an arbitrary
integer scalar `width`.  With a scalar `size` and no footprint/structure
argument scipy takes the separable flat path, which never allocates a
footprint array and applies a 1-D maximum filter only along axes whose size
exceeds 1 (its `sizes[ii] > 1` filter); any `width ≤ 1` — including the
negative widths coming from `size < 0` — therefore skips every axis and
silently returns the input values, raising nothing. -/
def greyDilationScalar (m : Mat ℚ) (width : ℤ) : Mat ℚ :=
  if 1 < width then greyDilation m width.toNat else m

/-- `bounded_slice` over Python ints.  For every `size ≥ -1` (all the trace
theorems use) both computed endpoints are nonnegative —
`max(i - size, 0) ≥ 0` and `min(i + size + 1, i_max) ≥ i ≥ 0` — so `Int.toNat`
converts them exactly and numpy's wrap-around interpretation of negative
slice endpoints never comes into play. -/
def bounded_sliceZ (center xy_max : List Nat) (size i_min : ℤ) : List (Nat × Nat) :=
  List.zipWith (fun i i_max =>
    ((max ((i : ℤ) - size) i_min).toNat, (min ((i : ℤ) + size + 1) (i_max : ℤ)).toNat))
    center xy_max

/-- Running the generator `iter_kernel(image, size)` to exhaustion for an
arbitrary integer `size`, with an error channel for the error conditions the
spec predicts.  The source performs no validation and contains no `raise`;
the scalar-size dilation cannot fail (`width ≤ 1` is a silent no-op, see
`greyDilationScalar`), and basic slicing with nonnegative in-range bounds
cannot fail either — so no loop step can produce an error and the channel is
`none` on every input. -/
def iterKernelTraceAux (image : Mat ℚ) (size : ℤ) :
    List ((Nat × Nat) × ℚ) → List ((Nat × Nat) × Mat ℚ × Mat ℚ) × Option PyErr
  | [] => ([], none)
  | x :: rest =>
    let h := matHeight image
    let w := matWidth image
    let i := x.1.1
    let j := x.1.2
    let mask := setMat (zerosMat h w) i j 1
    let mask := setMat (greyDilationScalar mask (2 * size + 1)) i j 2
    let subimage := applySlices image (bounded_sliceZ [i, j] [h, w] size 0)
    let rec_result := iterKernelTraceAux image size rest
    (((i, j), mask, subimage) :: rec_result.1, rec_result.2)

/-- The full generator run over `iter_pixels(image)`. -/
def iterKernelTrace (image : Mat ℚ) (size : ℤ) :
    List ((Nat × Nat) × Mat ℚ × Mat ℚ) × Option PyErr :=
  iterKernelTraceAux image size (iter_pixels image)

/-- A yielded window is a numpy basic-slicing view: a base-array identifier
in the store plus the two clamped slices. -/
structure WinView where
  base : Nat
  slices : List (Nat × Nat)
deriving DecidableEq, Repr

/-- A heap of allocated arrays, addressed by allocation index. -/
abbrev Store := List (Mat ℚ)

/-- Allocation-level run of the `iter_kernel` loop body over a list of
positions.  Per step, following the source: `np.zeros` allocates a fresh
array which is then written in place (`mask[i, j] = 1`); `grey_dilation`
allocates its result, which is then written in place (`mask[i, j] = 2`);
both allocations are appended to the store and the triple
`(position, id of the final mask, window view)` is yielded.  The image is
read from the store at `imgId` at each use, as the generator holds a
reference, never a copy. -/
def iterKernelStoreAux (imgId : Nat) (size : Nat) :
    List (Nat × Nat) → Store → List ((Nat × Nat) × Nat × WinView) × Store
  | [], store => ([], store)
  | p :: rest, store =>
    let image := store.getD imgId []
    let h := matHeight image
    let w := matWidth image
    let mask₀ := setMat (zerosMat h w) p.1 p.2 1
    let mask₁ := setMat (greyDilation mask₀ (2 * size + 1)) p.1 p.2 2
    let view : WinView := ⟨imgId, bounded_slice [p.1, p.2] [h, w] size 0⟩
    let rec_result := iterKernelStoreAux imgId size rest (store ++ [mask₀, mask₁])
    ((p, store.length + 1, view) :: rec_result.1, rec_result.2)

/-- Store-level run of the whole generator. -/
def iterKernelStore (store : Store) (imgId : Nat) (size : Nat) :
    List ((Nat × Nat) × Nat × WinView) × Store :=
  iterKernelStoreAux imgId size
    ((iter_pixels (store.getD imgId [])).map Prod.fst) store

/-- Dereference a window view against a store. -/
def derefView (store : Store) (v : WinView) : Mat ℚ :=
  applySlices (store.getD v.base []) v.slices

/-- Observable content of a yielded triple: the position, the mask's value in
the store, and the window's value through its view. -/
def observe (store : Store) (t : (Nat × Nat) × Nat × WinView) :
    (Nat × Nat) × Mat ℚ × Mat ℚ :=
  (t.1, store.getD t.2.1 [], derefView store t.2.2)

/-- Closed form of the triples produced by `iterKernelStoreAux` from a store
of length `base`. -/
def storeTriples (imgId size h w : Nat) :
    Nat → List (Nat × Nat) → List ((Nat × Nat) × Nat × WinView)
  | _, [] => []
  | base, p :: rest =>
    (p, base + 1, ⟨imgId, bounded_slice [p.1, p.2] [h, w] size 0⟩) ::
      storeTriples imgId size h w (base + 2) rest

/-- Closed form of the arrays appended to the store by `iterKernelStoreAux`:
two allocations per position. -/
def stepMasks (h w size : Nat) : List (Nat × Nat) → List (Mat ℚ)
  | [] => []
  | p :: rest =>
    setMat (zerosMat h w) p.1 p.2 1 ::
      setMat (greyDilation (setMat (zerosMat h w) p.1 p.2 1) (2 * size + 1)) p.1 p.2 2 ::
        stepMasks h w size rest

/-- Source `mean_factor = 1.0 / 9.0  # This assumes a 3x3 kernel.` -/
def mean_factor : ℚ := 1 / 9

/-- Broadcast scalar multiplication `c * m` over a 2-D array. -/
def smulMat (c : ℚ) (m : Mat ℚ) : Mat ℚ :=
  m.map fun row => row.map fun x => c * x

/-- `np.sum` over a 2-D array. -/
def matSum (m : Mat ℚ) : ℚ :=
  (m.map fun row => row.sum).sum

/-- Closure state of `mean_filter_step`: the unconsumed suffix of the
generator, and `image_cache`. -/
abbrev DemoState (Ov : Type) :=
  List ((Nat × Nat) × Mat ℚ × Mat ℚ) × List (Ov × Mat ℚ)

/-- One iteration of the `while` body of `mean_filter_step`, in source
order: read the base frame (`image` when `i_step == 0`, else
`image_cache[-1][1]` — `IndexError`, modelled as `none`, on an empty cache),
copy it, pull the next triple (`StopIteration`, modelled as `none`, when the
generator is exhausted), build the overlay through the external
`color.label2rgb(mask, image, ...)` (abstracted as the `label2rgb`
parameter), write the reduced value `np.sum(mean_factor * subimage)` at the
position, and append `(filter_overlay, filtered)` to the cache. -/
def meanFilterBody {Ov : Type} (image : Mat ℚ) (label2rgb : Mat ℚ → Mat ℚ → Ov)
    (i_step : Nat) (st : DemoState Ov) : Option (DemoState Ov) :=
  let base? : Option (Mat ℚ) :=
    if i_step = 0 then some image else (st.2.getLast?).map Prod.snd
  match base?, st.1 with
  | none, _ => none
  | _, [] => none
  | some filtered, t :: rest =>
    let value := matSum (smulMat mean_factor t.2.2)
    some (rest, st.2 ++ [(label2rgb t.2.1 image, setMat filtered t.1.1 t.1.2 value)])

/-- The `while i_step >= len(image_cache)` loop, on explicit fuel. -/
def meanFilterLoop {Ov : Type} (image : Mat ℚ) (label2rgb : Mat ℚ → Mat ℚ → Ov)
    (i_step : Nat) : Nat → DemoState Ov → Option (DemoState Ov)
  | 0, st => some st
  | fuel + 1, st =>
    if i_step < st.2.length then some st
    else
      match meanFilterBody image label2rgb i_step st with
      | none => none
      | some st' => meanFilterLoop image label2rgb i_step fuel st'

/-- Source `mean_filter_step(i_step)` as a state transformer.  Fuel
`i_step + 1` always suffices: every iteration appends exactly one cache
entry and the loop stops as soon as the cache is longer than `i_step`.  The
subsequent plotting of `image_cache[i_step]` reads but does not change the
closure state. -/
def mean_filter_step {Ov : Type} (image : Mat ℚ) (label2rgb : Mat ℚ → Mat ℚ → Ov)
    (st : DemoState Ov) (i_step : Nat) : Option (DemoState Ov) :=
  meanFilterLoop image label2rgb i_step (i_step + 1) st

/-- Source `mean_filter_demo(image)`: a fresh generator
(`iter_kernel(image)`, with the default `size = 1`) and an empty cache. -/
def mean_filter_demo (Ov : Type) (image : Mat ℚ) : DemoState Ov :=
  (iter_kernel image 1, [])

/-- The `k`-th triple of the default-size generator. -/
def tripleAt (image : Mat ℚ) (k : Nat) : (Nat × Nat) × Mat ℚ × Mat ℚ :=
  (iter_kernel image 1).getD k ((0, 0), [], [])

/-- Write the `k`-th reduced value into a base frame. -/
def stepWrite (image base : Mat ℚ) (k : Nat) : Mat ℚ :=
  setMat base (tripleAt image k).1.1 (tripleAt image k).1.2
    (matSum (smulMat mean_factor (tripleAt image k).2.2))

/-- The filtered image after the first `k + 1` steps. -/
def frameAt (image : Mat ℚ) : Nat → Mat ℚ
  | 0 => stepWrite image image 0
  | k + 1 => stepWrite image (frameAt image k) (k + 1)

/-- The canonical cache contents after `n` entries have been built. -/
def demoCache {Ov : Type} (image : Mat ℚ) (label2rgb : Mat ℚ → Mat ℚ → Ov) :
    Nat → List (Ov × Mat ℚ)
  | 0 => []
  | n + 1 =>
    demoCache image label2rgb n ++
      [(label2rgb (tripleAt image n).2.1 image, frameAt image n)]

/-- The canonical closure state after `n` entries have been built. -/
def demoState {Ov : Type} (image : Mat ℚ) (label2rgb : Mat ℚ → Mat ℚ → Ov)
    (n : Nat) : DemoState Ov :=
  ((iter_kernel image 1).drop n, demoCache image label2rgb n)

/-- Python `min` over a list, defined for nonempty lists (Python raises on an
empty one; all uses here are guarded by nonemptiness). -/
def listMinD (l : List ℚ) : ℚ :=
  match l with
  | [] => 0
  | x :: xs => xs.foldl min x

/-- Python `max` over a list, defined for nonempty lists. -/
def listMaxD (l : List ℚ) : ℚ :=
  match l with
  | [] => 0
  | x :: xs => xs.foldl max x

/-- `np.min` over a 2-D array (minimum over all entries). -/
def matMin (m : Mat ℚ) : ℚ := listMinD (m.flatMap id)

/-- `np.max` over a 2-D array. -/
def matMax (m : Mat ℚ) : ℚ := listMaxD (m.flatMap id)

/-- The empty panel title `''`. -/
def emptyTitle : String := ""

/-- What `imshow_all` hands to the plotting library: grid layout, figure
size, the shared intensity scale, and one `(image, title)` pair per panel. -/
structure ImshowSpec where
  nrows : Nat
  ncols : Nat
  figWidth : ℚ
  figHeight : ℚ
  vmin : ℚ
  vmax : ℚ
  panels : List (Mat ℚ × String)
deriving Repr

/-- Source `imshow_all(*images, titles=None)`: converts every input through
the external `img_as_float` (abstracted as a parameter), defaults the titles
to `[''] * len(images)`, computes the shared scale
`vmin = min(map(np.min, images))`, `vmax = max(map(np.max, images))`, lays
the panels out on one row (`plt.subplots(nrows=1, ncols=len(images))`,
`figsize=(5*len(images), 5)`), and pairs each panel with its title
(`zip(axes.ravel(), images, titles)` truncates to the shorter list, as
`zip` does). -/
def imshow_all (img_as_float : Mat ℚ → Mat ℚ) (images₀ : List (Mat ℚ))
    (titles₀ : Option (List String)) : ImshowSpec :=
  let images := images₀.map img_as_float
  let titles := match titles₀ with
    | none => List.replicate images.length emptyTitle
    | some ts => ts
  let vmin := listMinD (images.map matMin)
  let vmax := listMaxD (images.map matMax)
  let ncols := images.length
  let height : ℚ := 5
  let width : ℚ := height * (images.length : ℚ)
  { nrows := 1, ncols := ncols, figWidth := width, figHeight := height,
    vmin := vmin, vmax := vmax, panels := images.zip titles }

/-! ### Element-level lemmas for the array operations -/

theorem matHeight_of_rect {α : Type} {m : Mat α} {h w : Nat}
    (hr : Rect m h w) : matHeight m = h := hr.1

theorem matWidth_of_rect {α : Type} {m : Mat α} {h w : Nat}
    (hr : Rect m h w) (hh : 1 ≤ h) : matWidth m = w := by
  obtain ⟨hlen, hrow⟩ := hr
  cases m with
  | nil => simp [matHeight] at hlen; omega
  | cons r rest => exact hrow r (by simp) ▸ rfl

theorem getD_of_lt {α : Type} (l : List α) (i : Nat) (d : α) (hi : i < l.length) :
    l.getD i d = l[i] := by
  rw [List.getD_eq_getElem?_getD, List.getElem?_eq_getElem hi]; rfl

theorem getD_mem {α : Type} (l : List α) (i : Nat) (d : α) (hi : i < l.length) :
    l.getD i d ∈ l := by
  rw [getD_of_lt l i d hi]; exact l.getElem_mem hi

theorem matGetD_eq_getElem? {α : Type} (m : Mat α) (r c : Nat) (d : α) :
    matGetD m r c d = ((m[r]?.getD [])[c]?).getD d := by
  rw [matGetD, List.getD_eq_getElem?_getD, List.getD_eq_getElem?_getD]

theorem matGetD_setMat_ne {α : Type} (m : Mat α) (i j r c : Nat) (v d : α)
    (hne : ¬(r = i ∧ c = j)) : matGetD (setMat m i j v) r c d = matGetD m r c d := by
  rw [matGetD_eq_getElem?, matGetD_eq_getElem?, setMat]
  rcases eq_or_ne i r with rfl | hir
  · have hcj : c ≠ j := fun hc => hne ⟨rfl, hc⟩
    rw [List.getElem?_set, if_pos rfl]
    by_cases him : i < m.length
    · rw [if_pos him]
      simp only [Option.getD_some]
      rw [List.getElem?_set, if_neg (Ne.symm hcj)]
      rw [List.getD_eq_getElem?_getD]
    · rw [if_neg him, List.getElem?_eq_none (by omega : m.length ≤ i)]
  · rw [List.getElem?_set, if_neg hir]

theorem matGetD_setMat_self {α : Type} (m : Mat α) (i j : Nat) (v d : α)
    (hi : i < m.length) (hj : j < (m.getD i []).length) :
    matGetD (setMat m i j v) i j d = v := by
  rw [matGetD_eq_getElem?, setMat, List.getElem?_set, if_pos rfl, if_pos hi]
  simp only [Option.getD_some]
  rw [← List.getD_eq_getElem?_getD, getD_of_lt _ _ _ (by simpa using hj),
    List.getElem_set_self]

theorem Rect_setMat {α : Type} {m : Mat α} {h w : Nat} (hr : Rect m h w)
    (i j : Nat) (v : α) (hi : i < h) : Rect (setMat m i j v) h w := by
  obtain ⟨hl, hrow⟩ := hr
  refine ⟨by simp [setMat, hl], ?_⟩
  intro r hrm
  rcases List.mem_or_eq_of_mem_set hrm with hmem | rfl
  · exact hrow r hmem
  · rw [List.length_set]
    exact hrow _ (getD_mem m i [] (by omega))

theorem Rect_zerosMat (h w : Nat) : Rect (zerosMat h w) h w := by
  refine ⟨by simp [zerosMat], ?_⟩
  intro r hr
  rw [List.eq_of_mem_replicate hr]
  simp

theorem zerosMat_row (h w i : Nat) (hi : i < h) :
    (zerosMat h w).getD i [] = List.replicate w 0 := by
  rw [zerosMat, getD_of_lt _ _ _ (by simpa using hi), List.getElem_replicate]

theorem matGetD_zerosMat (h w r c : Nat) : matGetD (zerosMat h w) r c 0 = 0 := by
  rw [matGetD_eq_getElem?, zerosMat, List.getElem?_replicate]
  by_cases hr : r < h
  · rw [if_pos hr]
    simp only [Option.getD_some]
    rw [List.getElem?_replicate]
    by_cases hc : c < w
    · rw [if_pos hc]; rfl
    · rw [if_neg hc]; rfl
  · rw [if_neg hr]; rfl

theorem Rect_tabulate (h w : Nat) (f : Nat → Nat → ℚ) :
    Rect (tabulate h w f) h w := by
  refine ⟨by simp [tabulate], ?_⟩
  intro r hr
  simp only [tabulate, List.mem_map, List.mem_range] at hr
  obtain ⟨i, _, rfl⟩ := hr
  simp

theorem matGetD_tabulate {h w r c : Nat} (f : Nat → Nat → ℚ) (d : ℚ)
    (hr : r < h) (hc : c < w) : matGetD (tabulate h w f) r c d = f r c := by
  rw [matGetD_eq_getElem?, tabulate, List.getElem?_map, List.getElem?_range hr]
  show (((List.range w).map (f r))[c]?).getD d = f r c
  rw [List.getElem?_map, List.getElem?_range hc]
  rfl

theorem matGetD_tabulate_oob {h w r c : Nat} (f : Nat → Nat → ℚ) (d : ℚ)
    (hrc : ¬(r < h ∧ c < w)) : matGetD (tabulate h w f) r c d = d := by
  rw [matGetD_eq_getElem?, tabulate, List.getElem?_map]
  by_cases hr : r < h
  · have hc : w ≤ c := by omega
    rw [List.getElem?_range hr]
    show (((List.range w).map (f r))[c]?).getD d = d
    rw [List.getElem?_eq_none (show ((List.range w).map (f r)).length ≤ c by simpa using hc)]
    rfl
  · rw [List.getElem?_eq_none (show (List.range h).length ≤ r by simpa using Nat.le_of_not_lt hr)]
    rfl

theorem matExtQ {m₁ m₂ : Mat ℚ} {h w : Nat} (r₁ : Rect m₁ h w) (r₂ : Rect m₂ h w)
    (he : ∀ r c, r < h → c < w → matGetD m₁ r c 0 = matGetD m₂ r c 0) :
    m₁ = m₂ := by
  apply List.ext_getElem (r₁.1.trans r₂.1.symm)
  intro n h₁ h₂
  have hw₁ : m₁[n].length = w := r₁.2 _ (m₁.getElem_mem h₁)
  have hw₂ : m₂[n].length = w := r₂.2 _ (m₂.getElem_mem h₂)
  apply List.ext_getElem (hw₁.trans hw₂.symm)
  intro k hk₁ hk₂
  have hn : n < h := r₁.1 ▸ h₁
  have hkw : k < w := hw₁ ▸ hk₁
  have he' := he n k hn hkw
  rw [matGetD, matGetD, getD_of_lt _ _ _ h₁, getD_of_lt _ _ _ h₂,
    getD_of_lt _ _ _ hk₁, getD_of_lt _ _ _ hk₂] at he'
  exact he'

/-! ### The dilation-built mask equals direct clamped assignment -/

theorem foldr_max_indicator (l : List ℚ) (hl : ∀ x ∈ l, x = 0 ∨ x = 1) :
    l.foldr max 0 = if (1 : ℚ) ∈ l then 1 else 0 := by
  induction l with
  | nil => simp
  | cons x xs ih =>
    have hx := hl x (by simp)
    have ihh := ih (fun y hy => hl y (by simp [hy]))
    rcases hx with rfl | rfl
    · rw [List.foldr_cons, ihh]
      by_cases h1 : (1 : ℚ) ∈ xs
      · rw [if_pos h1, if_pos (List.mem_cons_of_mem _ h1)]
        exact max_eq_right (by norm_num)
      · rw [if_neg h1, if_neg ?_, max_self]
        intro hmem
        rcases List.mem_cons.1 hmem with h01 | h1' <;> [norm_num at h01; exact h1 h1']
    · rw [List.foldr_cons, ihh, if_pos (List.mem_cons_self 1 xs)]
      by_cases h1 : (1 : ℚ) ∈ xs
      · rw [if_pos h1, max_self]
      · rw [if_neg h1]
        exact max_eq_left (by norm_num)

theorem mask0_entry (h w i j : Nat) (hi : i < h) (hj : j < w) (a b : Nat) :
    matGetD (setMat (zerosMat h w) i j 1) a b 0 = if a = i ∧ b = j then (1 : ℚ) else 0 := by
  by_cases hab : a = i ∧ b = j
  · obtain ⟨rfl, rfl⟩ := hab
    rw [if_pos ⟨rfl, rfl⟩]
    apply matGetD_setMat_self
    · simpa [zerosMat] using hi
    · rw [zerosMat_row h w a hi]; simpa using hj
  · rw [if_neg hab, matGetD_setMat_ne _ _ _ _ _ _ _ hab, matGetD_zerosMat]

theorem mask0_rect (h w i j : Nat) (hi : i < h) :
    Rect (setMat (zerosMat h w) i j 1) h w :=
  Rect_setMat (Rect_zerosMat h w) i j 1 hi

theorem greyDilation_eq_tabulate (m : Mat ℚ) (width : Nat) :
    greyDilation m width = tabulate (matHeight m) (matWidth m) (fun r c =>
      (((List.range (matHeight m)).filter
          (fun a => (r - width / 2 ≤ a) && (a ≤ r + width / 2))).flatMap fun a =>
        ((List.range (matWidth m)).filter
          (fun b => (c - width / 2 ≤ b) && (b ≤ c + width / 2))).map fun b =>
          matGetD m a b 0).foldr max 0) := rfl

theorem greyDilation_mask0_entry (h w s i j : Nat) (hi : i < h) (hj : j < w)
    (r c : Nat) (hr : r < h) (hc : c < w) :
    matGetD (greyDilation (setMat (zerosMat h w) i j 1) (2 * s + 1)) r c 0
      = if r - s ≤ i ∧ i ≤ r + s ∧ c - s ≤ j ∧ j ≤ c + s then 1 else 0 := by
  have hm0 := mask0_rect h w i j hi
  have hH : matHeight (setMat (zerosMat h w) i j 1) = h := hm0.1
  have hW : matWidth (setMat (zerosMat h w) i j 1) = w :=
    matWidth_of_rect hm0 (by omega)
  have hhalf : (2 * s + 1) / 2 = s := by omega
  rw [greyDilation_eq_tabulate, matHeight_of_rect hm0, hW, matGetD_tabulate _ _ hr hc, hhalf]
  set L := ((List.range h).filter (fun a => (r - s ≤ a) && (a ≤ r + s))).flatMap
    (fun a => ((List.range w).filter (fun b => (c - s ≤ b) && (b ≤ c + s))).map
      (fun b => matGetD (setMat (zerosMat h w) i j 1) a b 0)) with hL
  have hmemL : ∀ x ∈ L, x = 0 ∨ x = 1 := by
    intro x hx
    rw [hL] at hx
    simp only [List.mem_flatMap, List.mem_map, List.mem_filter, List.mem_range] at hx
    obtain ⟨a, _, b, _, rfl⟩ := hx
    rw [mask0_entry h w i j hi hj a b]
    by_cases hab : a = i ∧ b = j
    · rw [if_pos hab]; right; rfl
    · rw [if_neg hab]; left; rfl
  rw [foldr_max_indicator L hmemL]
  have hiff : ((1 : ℚ) ∈ L) ↔ (r - s ≤ i ∧ i ≤ r + s ∧ c - s ≤ j ∧ j ≤ c + s) := by
    rw [hL]
    simp only [List.mem_flatMap, List.mem_map, List.mem_filter, List.mem_range,
      Bool.and_eq_true, decide_eq_true_eq]
    constructor
    · rintro ⟨a, ⟨ha, ha1, ha2⟩, b, ⟨hb, hb1, hb2⟩, heq⟩
      rw [mask0_entry h w i j hi hj a b] at heq
      by_cases hab : a = i ∧ b = j
      · obtain ⟨rfl, rfl⟩ := hab
        exact ⟨ha1, ha2, hb1, hb2⟩
      · rw [if_neg hab] at heq; norm_num at heq
    · rintro ⟨h1, h2, h3, h4⟩
      refine ⟨i, ⟨hi, h1, h2⟩, j, ⟨hj, h3, h4⟩, ?_⟩
      rw [mask0_entry h w i j hi hj, if_pos ⟨rfl, rfl⟩]
  rw [if_congr hiff rfl rfl]

theorem greyDilation_mask0_rect (h w s i j : Nat) (hi : i < h) :
    Rect (greyDilation (setMat (zerosMat h w) i j 1) (2 * s + 1)) h w := by
  have hm0 := mask0_rect h w i j hi
  rw [greyDilation_eq_tabulate, matHeight_of_rect hm0, matWidth_of_rect hm0 (by omega)]
  exact Rect_tabulate h _ _

theorem Rect_maskDirect (h w s i j : Nat) : Rect (maskDirect h w s i j) h w :=
  Rect_tabulate h w _

theorem Rect_kernelMask (h w s i j : Nat) (hi : i < h) :
    Rect (kernelMask h w s i j) h w :=
  Rect_setMat (greyDilation_mask0_rect h w s i j hi) i j 2 hi

theorem kernelMask_def (h w s i j : Nat) :
    kernelMask h w s i j
      = setMat (greyDilation (setMat (zerosMat h w) i j 1) (2 * s + 1)) i j 2 := rfl

theorem kernelMask_eq_maskDirect (h w s i j : Nat) (hi : i < h) (hj : j < w) :
    kernelMask h w s i j = maskDirect h w s i j := by
  have hdil := greyDilation_mask0_rect h w s i j hi
  apply matExtQ (Rect_kernelMask h w s i j hi) (Rect_maskDirect h w s i j)
  intro r c hr hc
  rw [maskDirect, matGetD_tabulate _ _ hr hc]
  by_cases hrc : r = i ∧ c = j
  · obtain ⟨rfl, rfl⟩ := hrc
    rw [if_pos ⟨rfl, rfl⟩, kernelMask_def]
    apply matGetD_setMat_self
    · rw [hdil.1]; exact hi
    · have hrow := hdil.2 _ (getD_mem _ r [] (by rw [hdil.1]; exact hi))
      rw [hrow]; exact hj
  · rw [if_neg hrc, kernelMask_def, matGetD_setMat_ne _ _ _ _ _ _ _ hrc,
      greyDilation_mask0_entry h w s i j hi hj r c hr hc]
    have hcond : (r - s ≤ i ∧ i ≤ r + s ∧ c - s ≤ j ∧ j ≤ c + s)
        ↔ (i - s ≤ r ∧ r < i + s + 1 ∧ j - s ≤ c ∧ c < j + s + 1) := by omega
    rw [if_congr hcond rfl rfl]

theorem iter_pixels_map_fst (image : Mat ℚ) :
    (iter_pixels image).map Prod.fst = rowMajor (matHeight image) (matWidth image) := by
  simp [iter_pixels, rowMajor, List.map_flatMap, Function.comp_def]

theorem rowMajor_eq_map_range (h w : Nat) :
    rowMajor h w = (List.range (h * w)).map (fun k => (k / w, k % w)) := by
  rcases Nat.eq_zero_or_pos w with hw | hw
  · subst hw; simp [rowMajor]
  · induction h with
    | zero => simp [rowMajor]
    | succ h ih =>
      rw [rowMajor, List.range_succ, List.flatMap_append, ← rowMajor, ih,
        Nat.succ_mul, List.range_add, List.map_append]
      congr 1
      simp only [List.flatMap_cons, List.flatMap_nil, List.append_nil, List.map_map]
      apply List.map_congr_left
      intro j hj
      rw [List.mem_range] at hj
      have hdiv : (h * w + j) / w = h := by
        rw [Nat.mul_comm h w, Nat.mul_add_div hw, Nat.div_eq_of_lt hj, Nat.add_zero]
      have hmod : (h * w + j) % w = j := by
        rw [Nat.mul_comm h w, Nat.mul_add_mod, Nat.mod_eq_of_lt hj]
      simp [Function.comp_def, hdiv, hmod]

theorem rowMajor_length (h w : Nat) : (rowMajor h w).length = h * w := by
  rw [rowMajor_eq_map_range]; simp

theorem rowMajor_nodup (h w : Nat) : (rowMajor h w).Nodup := by
  rw [rowMajor_eq_map_range]
  refine List.Nodup.map ?_ (List.nodup_range _)
  intro k₁ k₂ hk
  have hd : k₁ / w = k₂ / w := congrArg Prod.fst hk
  have hm : k₁ % w = k₂ % w := congrArg Prod.snd hk
  calc k₁ = w * (k₁ / w) + k₁ % w := (Nat.div_add_mod k₁ w).symm
    _ = w * (k₂ / w) + k₂ % w := by rw [hd, hm]
    _ = k₂ := Nat.div_add_mod k₂ w

theorem rowMajor_getD (h w k : Nat) (hk : k < h * w) :
    (rowMajor h w).getD k (0, 0) = (k / w, k % w) := by
  rw [rowMajor_eq_map_range, List.getD_eq_getElem?_getD,
    List.getElem?_eq_getElem (by simpa using hk)]
  simp

theorem mem_rowMajor {h w : Nat} {p : Nat × Nat} :
    p ∈ rowMajor h w ↔ p.1 < h ∧ p.2 < w := by
  constructor
  · intro hp
    simp only [rowMajor, List.mem_flatMap, List.mem_map, List.mem_range] at hp
    obtain ⟨i, hi, j, hj, rfl⟩ := hp
    exact ⟨hi, hj⟩
  · intro ⟨h1, h2⟩
    simp only [rowMajor, List.mem_flatMap, List.mem_map, List.mem_range]
    exact ⟨p.1, h1, p.2, h2, rfl⟩

theorem mem_iter_kernel {image : Mat ℚ} {size : Nat}
    {t : (Nat × Nat) × Mat ℚ × Mat ℚ} :
    t ∈ iter_kernel image size ↔
      ∃ i j, i < matHeight image ∧ j < matWidth image ∧
        t = ((i, j), kernelMask (matHeight image) (matWidth image) size i j,
          applySlices image
            (bounded_slice [i, j] [matHeight image, matWidth image] size 0)) := by
  simp only [iter_kernel, iter_pixels, List.mem_map, List.mem_flatMap,
    List.mem_range]
  constructor
  · rintro ⟨x, ⟨i, hi, ⟨j, hj, rfl⟩⟩, rfl⟩
    exact ⟨i, j, hi, hj, rfl⟩
  · rintro ⟨i, j, hi, hj, rfl⟩
    exact ⟨((i, j), matGetD image i j 0), ⟨i, hi, j, hj, rfl⟩, rfl⟩

/-- C1: every triple yielded by `iter_kernel` carries a mask that is a fresh
array of the image's shape with `2` at the position, `1` at exactly the cells
of the clamped square neighborhood of radius `size` around the position
(excluding the position itself), and `0` everywhere else: the
`grey_dilation`-based construction coincides with direct clamped-range
assignment (`maskDirect`, spec §4.1). -/
theorem iter_kernel_mask_spec (image : Mat ℚ) (h w : Nat)
    (hr : Rect image h w) (hh : 1 ≤ h) (hw : 1 ≤ w) (size : Nat) :
    ∀ t ∈ iter_kernel image size,
      t.2.1 = maskDirect h w size t.1.1 t.1.2 ∧
      Rect t.2.1 h w ∧
      matGetD t.2.1 t.1.1 t.1.2 0 = 2 ∧
      (∀ r c, r < h → c < w → ¬(r = t.1.1 ∧ c = t.1.2) →
        matGetD t.2.1 r c 0 =
          if t.1.1 - size ≤ r ∧ r < t.1.1 + size + 1 ∧
             t.1.2 - size ≤ c ∧ c < t.1.2 + size + 1 then 1 else 0) := by
  have hH : matHeight image = h := matHeight_of_rect hr
  have hW : matWidth image = w := matWidth_of_rect hr hh
  intro t ht
  rw [mem_iter_kernel, hH, hW] at ht
  obtain ⟨i, j, hi, hj, rfl⟩ := ht
  have hmask := kernelMask_eq_maskDirect h w size i j hi hj
  refine ⟨hmask, hmask ▸ Rect_maskDirect h w size i j, ?_, ?_⟩
  · rw [hmask, maskDirect, matGetD_tabulate _ _ hi hj, if_pos ⟨rfl, rfl⟩]
  · intro r c hrh hcw hne
    rw [hmask, maskDirect, matGetD_tabulate _ _ hrh hcw, if_neg hne]

/-- Witness for C1 on the spec's concrete 3 × 3 scenario image with
`size = 1`. -/
theorem iter_kernel_mask_spec_witness :
    (Rect [[(0 : ℚ), 0, 0], [0, 1, 0], [0, 0, 0]] 3 3 ∧ (1 : Nat) ≤ 3) ∧
    (∀ t ∈ iter_kernel [[(0 : ℚ), 0, 0], [0, 1, 0], [0, 0, 0]] 1,
      t.2.1 = maskDirect 3 3 1 t.1.1 t.1.2 ∧
      Rect t.2.1 3 3 ∧
      matGetD t.2.1 t.1.1 t.1.2 0 = 2 ∧
      (∀ r c, r < 3 → c < 3 → ¬(r = t.1.1 ∧ c = t.1.2) →
        matGetD t.2.1 r c 0 =
          if t.1.1 - 1 ≤ r ∧ r < t.1.1 + 1 + 1 ∧
             t.1.2 - 1 ≤ c ∧ c < t.1.2 + 1 + 1 then 1 else 0)) :=
  ⟨⟨by decide, by decide⟩,
    iter_kernel_mask_spec [[(0 : ℚ), 0, 0], [0, 1, 0], [0, 0, 0]] 3 3
      (by decide) (by decide) (by decide) 1⟩

theorem sliceList_length {α : Type} (l : List α) (s : Nat × Nat)
    (hs : s.2 ≤ l.length) : (sliceList l s).length = s.2 - s.1 := by
  simp only [sliceList, List.length_take, List.length_drop]
  omega

theorem sliceList_getElem {α : Type} (l : List α) (lo hi b : Nat)
    (hhi : hi ≤ l.length) (hb : b < hi - lo) :
    (sliceList l (lo, hi)).getD b = l.getD (lo + b) := by
  funext d
  have h1 : (sliceList l (lo, hi)).length = hi - lo :=
    sliceList_length l (lo, hi) hhi
  rw [getD_of_lt _ _ _ (by omega), getD_of_lt _ _ _ (by omega : lo + b < l.length)]
  simp only [sliceList]
  rw [List.getElem_take, List.getElem_drop]

theorem applySlices_cons {α : Type} (m : Mat α) (rs cs : Nat × Nat) :
    applySlices m [rs, cs] = (sliceList m rs).map (fun row => sliceList row cs) := rfl

theorem applySlices_length (image : Mat ℚ) {h w : Nat} (hr : Rect image h w)
    (rlo rhi clo chi : Nat) (hrhi : rhi ≤ h) :
    (applySlices image [(rlo, rhi), (clo, chi)]).length = rhi - rlo := by
  rw [applySlices_cons, List.length_map,
    sliceList_length image (rlo, rhi) (by rw [hr.1]; exact hrhi)]

theorem applySlices_row_length (image : Mat ℚ) {h w : Nat} (hr : Rect image h w)
    (rlo rhi clo chi : Nat) (hchi : chi ≤ w) :
    ∀ row ∈ applySlices image [(rlo, rhi), (clo, chi)], row.length = chi - clo := by
  intro row hrow
  rw [applySlices_cons] at hrow
  obtain ⟨row₀, hrow₀, rfl⟩ := List.mem_map.1 hrow
  have hmem : row₀ ∈ image :=
    List.mem_of_mem_drop (List.mem_of_mem_take hrow₀)
  exact sliceList_length row₀ (clo, chi) (by rw [hr.2 row₀ hmem]; exact hchi)

theorem applySlices_matGetD (image : Mat ℚ) {h w : Nat} (hr : Rect image h w)
    (rlo rhi clo chi a b : Nat) (hrhi : rhi ≤ h) (hchi : chi ≤ w)
    (ha : a < rhi - rlo) (hb : b < chi - clo) :
    matGetD (applySlices image [(rlo, rhi), (clo, chi)]) a b 0
      = matGetD image (rlo + a) (clo + b) 0 := by
  have hlen : image.length = h := hr.1
  rw [applySlices_cons, matGetD]
  have hslen : (sliceList image (rlo, rhi)).length = rhi - rlo :=
    sliceList_length _ _ (by omega)
  have halen : a < ((sliceList image (rlo, rhi)).map
      (fun row => sliceList row (clo, chi))).length := by
    rw [List.length_map, hslen]; exact ha
  rw [getD_of_lt _ _ _ halen, List.getElem_map]
  have hae : a < (sliceList image (rlo, rhi)).length := by rw [hslen]; exact ha
  have hinner : (sliceList image (rlo, rhi))[a] = image.getD (rlo + a) [] := by
    rw [← getD_of_lt _ _ _ hae]
    exact congrFun (sliceList_getElem image rlo rhi a (by omega) ha) []
  rw [hinner]
  have hrowlen : (image.getD (rlo + a) []).length = w :=
    hr.2 _ (getD_mem image (rlo + a) [] (by omega))
  rw [matGetD]
  exact congrFun (sliceList_getElem (image.getD (rlo + a) []) clo chi b
    (by rw [hrowlen]; exact hchi) hb) 0

/-- C2: the window yielded at position `(i, j)` is the image restricted to
rows `[max(i-size,0), min(i+size+1,h))` and columns
`[max(j-size,0), min(j+size+1,w))` (lower clamps written with truncating
`Nat` subtraction); in particular its shape is
`(min(i+size+1,h) - max(i-size,0), min(j+size+1,w) - max(j-size,0))`. -/
theorem iter_kernel_window_spec (image : Mat ℚ) (h w : Nat)
    (hr : Rect image h w) (hh : 1 ≤ h) (hw : 1 ≤ w) (size : Nat) :
    ∀ t ∈ iter_kernel image size,
      t.2.2.length = min (t.1.1 + size + 1) h - (t.1.1 - size) ∧
      (∀ row ∈ t.2.2, row.length = min (t.1.2 + size + 1) w - (t.1.2 - size)) ∧
      (∀ a b, a < min (t.1.1 + size + 1) h - (t.1.1 - size) →
        b < min (t.1.2 + size + 1) w - (t.1.2 - size) →
        matGetD t.2.2 a b 0
          = matGetD image (t.1.1 - size + a) (t.1.2 - size + b) 0) := by
  have hH : matHeight image = h := matHeight_of_rect hr
  have hW : matWidth image = w := matWidth_of_rect hr hh
  intro t ht
  rw [mem_iter_kernel, hH, hW] at ht
  obtain ⟨i, j, hi, hj, rfl⟩ := ht
  have hsl : bounded_slice [i, j] [h, w] size 0
      = [(i - size, min (i + size + 1) h), (j - size, min (j + size + 1) w)] := by
    simp [bounded_slice]
  rw [hsl]
  refine ⟨applySlices_length image hr _ _ _ _ (by omega), ?_, ?_⟩
  · exact applySlices_row_length image hr _ _ _ _ (by omega)
  · intro a b ha hb
    exact applySlices_matGetD image hr _ _ _ _ a b (by omega) (by omega) ha hb

/-- Witness for C2 on a concrete 2 × 3 image with `size = 1`. -/
theorem iter_kernel_window_spec_witness :
    (Rect [[(1 : ℚ), 2, 3], [4, 5, 6]] 2 3 ∧ (1 : Nat) ≤ 2 ∧ (1 : Nat) ≤ 3) ∧
    (∀ t ∈ iter_kernel [[(1 : ℚ), 2, 3], [4, 5, 6]] 1,
      t.2.2.length = min (t.1.1 + 1 + 1) 2 - (t.1.1 - 1) ∧
      (∀ row ∈ t.2.2, row.length = min (t.1.2 + 1 + 1) 3 - (t.1.2 - 1)) ∧
      (∀ a b, a < min (t.1.1 + 1 + 1) 2 - (t.1.1 - 1) →
        b < min (t.1.2 + 1 + 1) 3 - (t.1.2 - 1) →
        matGetD t.2.2 a b 0
          = matGetD [[(1 : ℚ), 2, 3], [4, 5, 6]] (t.1.1 - 1 + a) (t.1.2 - 1 + b) 0)) :=
  ⟨⟨by decide, by decide, by decide⟩,
    iter_kernel_window_spec [[(1 : ℚ), 2, 3], [4, 5, 6]] 2 3
      (by decide) (by decide) (by decide) 1⟩

theorem sliceList_single {α : Type} (l : List α) (i : Nat) (hi : i < l.length) :
    sliceList l (i, i + 1) = [l[i]] := by
  show (l.drop i).take (i + 1 - i) = _
  rw [Nat.add_sub_cancel_left, List.drop_eq_getElem_cons hi]
  rfl

/-- C5: with `size = 0` every yielded window has shape `(1, 1)` and holds
exactly the pixel at the position, and every yielded mask holds a single `2`
at the position, `0` everywhere else, and no cell with value `1`. -/
theorem iter_kernel_size_zero (image : Mat ℚ) (h w : Nat)
    (hr : Rect image h w) (hh : 1 ≤ h) (hw : 1 ≤ w) :
    ∀ t ∈ iter_kernel image 0,
      t.2.2 = [[matGetD image t.1.1 t.1.2 0]] ∧
      t.2.2.length = 1 ∧ (∀ row ∈ t.2.2, row.length = 1) ∧
      matGetD t.2.1 t.1.1 t.1.2 0 = 2 ∧
      (∀ r c, ¬(r = t.1.1 ∧ c = t.1.2) → matGetD t.2.1 r c 0 = 0) ∧
      (∀ r c, matGetD t.2.1 r c 0 ≠ 1) := by
  have hH : matHeight image = h := matHeight_of_rect hr
  have hW : matWidth image = w := matWidth_of_rect hr hh
  intro t ht
  rw [mem_iter_kernel, hH, hW] at ht
  obtain ⟨i, j, hi, hj, rfl⟩ := ht
  have hsl : bounded_slice [i, j] [h, w] 0 0 = [(i, i + 1), (j, j + 1)] := by
    simp only [bounded_slice, List.zipWith_cons_cons, List.zipWith_nil_right]
    rw [Nat.min_eq_left (by omega), Nat.min_eq_left (by omega)]
    simp
  have hilen : i < image.length := by rw [hr.1]; exact hi
  have hrow : image[i].length = w := hr.2 _ (image.getElem_mem hilen)
  have hjlen : j < image[i].length := by rw [hrow]; exact hj
  have hwin : applySlices image (bounded_slice [i, j] [h, w] 0 0)
      = [[matGetD image i j 0]] := by
    rw [hsl, applySlices_cons, sliceList_single image i hilen, List.map_cons,
      List.map_nil, sliceList_single image[i] j hjlen]
    rw [matGetD, getD_of_lt image i [] hilen, getD_of_lt image[i] j 0 hjlen]
  have hmask := kernelMask_eq_maskDirect h w 0 i j hi hj
  refine ⟨hwin, by rw [hwin]; rfl, by rw [hwin]; simp, ?_, ?_, ?_⟩
  · rw [hmask, maskDirect, matGetD_tabulate _ _ hi hj, if_pos ⟨rfl, rfl⟩]
  · intro r c hne
    have hne' : ¬(r = i ∧ c = j) := hne
    by_cases hin : r < h ∧ c < w
    · rw [hmask, maskDirect, matGetD_tabulate _ _ hin.1 hin.2, if_neg hne',
        if_neg (by omega)]
    · rw [hmask, maskDirect, matGetD_tabulate_oob _ _ hin]
  · intro r c
    by_cases hrc : r = i ∧ c = j
    · obtain ⟨rfl, rfl⟩ := hrc
      rw [hmask, maskDirect, matGetD_tabulate _ _ hi hj, if_pos ⟨rfl, rfl⟩]
      norm_num
    · by_cases hin : r < h ∧ c < w
      · rw [hmask, maskDirect, matGetD_tabulate _ _ hin.1 hin.2, if_neg hrc,
          if_neg (by omega)]
        norm_num
      · rw [hmask, maskDirect, matGetD_tabulate_oob _ _ hin]
        norm_num

/-- Witness for C5 on a concrete 2 × 2 image. -/
theorem iter_kernel_size_zero_witness :
    (Rect [[(3 : ℚ), 1], [4, 1]] 2 2 ∧ (1 : Nat) ≤ 2) ∧
    (∀ t ∈ iter_kernel [[(3 : ℚ), 1], [4, 1]] 0,
      t.2.2 = [[matGetD [[(3 : ℚ), 1], [4, 1]] t.1.1 t.1.2 0]] ∧
      t.2.2.length = 1 ∧ (∀ row ∈ t.2.2, row.length = 1) ∧
      matGetD t.2.1 t.1.1 t.1.2 0 = 2 ∧
      (∀ r c, ¬(r = t.1.1 ∧ c = t.1.2) → matGetD t.2.1 r c 0 = 0) ∧
      (∀ r c, matGetD t.2.1 r c 0 ≠ 1)) :=
  ⟨⟨by decide, by decide⟩,
    iter_kernel_size_zero [[(3 : ℚ), 1], [4, 1]] 2 2 (by decide) (by decide) (by decide)⟩

/-! ### No argument validation in the source (C4) -/

theorem iter_pixels_eq_nil {image : Mat ℚ} {h w : Nat} (hr : Rect image h w)
    (hzero : h = 0 ∨ w = 0) : iter_pixels image = [] := by
  rcases hzero with hz | hz
  · have : matHeight image = 0 := by rw [matHeight_of_rect hr, hz]
    simp [iter_pixels, this]
  · rcases Nat.eq_zero_or_pos h with hh | hh
    · have : matHeight image = 0 := by rw [matHeight_of_rect hr, hh]
      simp [iter_pixels, this]
    · have : matWidth image = 0 := by rw [matWidth_of_rect hr hh, hz]
      simp [iter_pixels, this]

theorem iter_pixels_length {image : Mat ℚ} {h w : Nat}
    (hr : Rect image h w) (hh : 1 ≤ h) : (iter_pixels image).length = h * w := by
  have := congrArg List.length (iter_pixels_map_fst image)
  rw [List.length_map, rowMajor_length, matHeight_of_rect hr,
    matWidth_of_rect hr hh] at this
  exact this

theorem iterKernelTraceAux_run (image : Mat ℚ) (size : ℤ) :
    ∀ ps : List ((Nat × Nat) × ℚ),
      (iterKernelTraceAux image size ps).2 = none ∧
      (iterKernelTraceAux image size ps).1.length = ps.length := by
  intro ps
  induction ps with
  | nil => exact ⟨rfl, rfl⟩
  | cons x rest ih =>
    simp only [iterKernelTraceAux, List.length_cons]
    exact ⟨ih.1, by rw [ih.2]⟩

/-- Counterexample to C4: the source performs no argument validation and the
run raises nothing on the claim's inputs.  On a zero-row or zero-column
image (even together with `size = -1`) the generator completes silently with
zero triples; and with `size = -1` on a nonempty 1 × 1 image the pull
succeeds — scipy's scalar-size dilation is a silent no-op for sizes ≤ 1, so
the triple is yielded (with a mask lacking its 1-ring and an empty window)
and no error, in particular no `InvalidArgument`, is ever raised. -/
theorem iter_kernel_validation_counterexample :
    iterKernelTrace ([] : Mat ℚ) 0 = ([], none) ∧
    iterKernelTrace ([] : Mat ℚ) (-1) = ([], none) ∧
    iterKernelTrace [([] : List ℚ)] (-1) = ([], none) ∧
    (iterKernelTrace ([] : Mat ℚ) 0).2 ≠ some PyErr.invalidArgument ∧
    iterKernelTrace [[(1 : ℚ)]] (-1) = ([((0, 0), [[2]], ([] : Mat ℚ))], none) ∧
    (iterKernelTrace [[(1 : ℚ)]] (-1)).1.length = 1 ∧
    (iterKernelTrace [[(1 : ℚ)]] (-1)).2 ≠ some PyErr.invalidArgument := by
  have e₁ : iterKernelTrace ([] : Mat ℚ) 0 = ([], none) := rfl
  have e₂ : iterKernelTrace [[(1 : ℚ)]] (-1)
      = ([((0, 0), [[2]], ([] : Mat ℚ))], none) := by decide
  refine ⟨e₁, rfl, rfl, by rw [e₁]; simp, e₂, by rw [e₂]; rfl, by rw [e₂]; simp⟩

/-- C4 (amended): the generator validates nothing and raises nothing on the
claim's invalid inputs.  With a zero-row or zero-column image it yields zero
triples and completes without any error, for any `size`; with `size = -1` on
an image with `h ≥ 1` and `w ≥ 1` the external dilation is a silent no-op
(scipy's scalar-size flat path skips axes of size ≤ 1), so the run also
completes without any error and yields all `h * w` triples — no
`InvalidArgument` (or other error) is raised, synchronously or on any
pull. -/
theorem iter_kernel_no_validation (image : Mat ℚ) (h w : Nat) (hr : Rect image h w) :
    (h = 0 ∨ w = 0 → ∀ size : ℤ, iterKernelTrace image size = ([], none)) ∧
    (1 ≤ h → 1 ≤ w →
      (iterKernelTrace image (-1)).2 = none ∧
      (iterKernelTrace image (-1)).1.length = h * w ∧
      (iterKernelTrace image (-1)).2 ≠ some PyErr.invalidArgument) := by
  constructor
  · intro hzero size
    rw [iterKernelTrace, iter_pixels_eq_nil hr hzero]
    rfl
  · intro hh hw
    have hrun := iterKernelTraceAux_run image (-1) (iter_pixels image)
    have hnone : (iterKernelTrace image (-1)).2 = none := hrun.1
    refine ⟨hnone, ?_, by rw [hnone]; simp⟩
    show (iterKernelTraceAux image (-1) (iter_pixels image)).1.length = h * w
    rw [hrun.2, iter_pixels_length hr hh]

/-- Witness for C4's amended statement at concrete inputs. -/
theorem iter_kernel_no_validation_witness :
    (Rect ([] : Mat ℚ) 0 3 ∧ Rect [[(1 : ℚ), 2], [3, 4]] 2 2) ∧
    iterKernelTrace ([] : Mat ℚ) 7 = ([], none) ∧
    ((iterKernelTrace [[(1 : ℚ), 2], [3, 4]] (-1)).2 = none ∧
     (iterKernelTrace [[(1 : ℚ), 2], [3, 4]] (-1)).1.length = 2 * 2 ∧
     (iterKernelTrace [[(1 : ℚ), 2], [3, 4]] (-1)).2 ≠ some PyErr.invalidArgument) :=
  ⟨⟨by decide, by decide⟩,
    (iter_kernel_no_validation ([] : Mat ℚ) 0 3 (by decide)).1 (Or.inl rfl) 7,
    (iter_kernel_no_validation [[(1 : ℚ), 2], [3, 4]] 2 2 (by decide)).2
      (by decide) (by decide)⟩

theorem iter_kernel_eq_map (image : Mat ℚ) (size : Nat) :
    iter_kernel image size = (iter_pixels image).map (fun x =>
      (x.1, kernelMask (matHeight image) (matWidth image) size x.1.1 x.1.2,
        applySlices image
          (bounded_slice [x.1.1, x.1.2] [matHeight image, matWidth image] size 0))) := rfl

theorem iter_kernel_length {image : Mat ℚ} {h w : Nat}
    (hr : Rect image h w) (hh : 1 ≤ h) (size : Nat) :
    (iter_kernel image size).length = h * w := by
  rw [iter_kernel_eq_map, List.length_map, iter_pixels_length hr hh]

theorem iter_kernel_getD (image : Mat ℚ) {h w : Nat}
    (hr : Rect image h w) (hh : 1 ≤ h) (size k : Nat) (hk : k < h * w) :
    (iter_kernel image size).getD k ((0, 0), [], [])
      = ((k / w, k % w), kernelMask h w size (k / w) (k % w),
         applySlices image (bounded_slice [k / w, k % w] [h, w] size 0)) := by
  have hH : matHeight image = h := matHeight_of_rect hr
  have hW : matWidth image = w := matWidth_of_rect hr hh
  have hkp : k < (iter_pixels image).length := by
    rw [iter_pixels_length hr hh]; exact hk
  have hfst : (iter_pixels image)[k].1 = (k / w, k % w) := by
    have h1 := congrArg (fun l => l.getD k ((0 : Nat), (0 : Nat)))
      (iter_pixels_map_fst image)
    simp only [hH, hW] at h1
    rw [getD_of_lt _ _ _ (by rw [List.length_map]; exact hkp),
      List.getElem_map, rowMajor_getD h w k hk] at h1
    exact h1
  rw [iter_kernel_eq_map,
    getD_of_lt _ _ _ (by rw [List.length_map]; exact hkp),
    List.getElem_map, hfst, hH, hW]

theorem tripleAt_eq (image : Mat ℚ) {h w : Nat}
    (hr : Rect image h w) (hh : 1 ≤ h) (k : Nat) (hk : k < h * w) :
    tripleAt image k
      = ((k / w, k % w), kernelMask h w 1 (k / w) (k % w),
         applySlices image (bounded_slice [k / w, k % w] [h, w] 1 0)) :=
  iter_kernel_getD image hr hh 1 k hk

/-- C3: `iter_kernel` yields exactly `height * width` triples whose positions
are pairwise distinct and enumerate all of `{0..h-1} × {0..w-1}` in row-major
order (row 0 first, columns left to right within each row; the `k`-th
position is `(k / w, k % w)`). -/
theorem iter_kernel_positions (image : Mat ℚ) (h w : Nat)
    (hr : Rect image h w) (hh : 1 ≤ h) (hw : 1 ≤ w) (size : Nat) :
    (iter_kernel image size).length = h * w ∧
    (iter_kernel image size).map (fun t => t.1) = rowMajor h w ∧
    ((iter_kernel image size).map (fun t => t.1)).Nodup ∧
    (∀ k, k < h * w →
      ((iter_kernel image size).map (fun t => t.1)).getD k (0, 0) = (k / w, k % w)) ∧
    (∀ p : Nat × Nat, p ∈ (iter_kernel image size).map (fun t => t.1) ↔
      p.1 < h ∧ p.2 < w) := by
  have hwid : matWidth image = w := matWidth_of_rect hr hh
  have hht : matHeight image = h := hr.1
  have hfst : (iter_kernel image size).map (fun t => t.1) = rowMajor h w := by
    have : (iter_kernel image size).map (fun t => t.1)
        = (iter_pixels image).map Prod.fst := by
      simp [iter_kernel, List.map_map, Function.comp_def]
    rw [this, iter_pixels_map_fst, hwid, hht]
  refine ⟨?_, hfst, ?_, ?_, ?_⟩
  · have := congrArg List.length hfst
    simpa [rowMajor_length] using this
  · rw [hfst]; exact rowMajor_nodup h w
  · intro k hk; rw [hfst]; exact rowMajor_getD h w k hk
  · intro p; rw [hfst]; exact mem_rowMajor

/-- Witness for C3 on a concrete 2 × 2 image. -/
theorem iter_kernel_positions_witness :
    (Rect [[(1 : ℚ), 2], [3, 4]] 2 2 ∧ 1 ≤ 2) ∧
    ((iter_kernel [[(1 : ℚ), 2], [3, 4]] 1).length = 2 * 2 ∧
     (iter_kernel [[(1 : ℚ), 2], [3, 4]] 1).map (fun t => t.1) = rowMajor 2 2 ∧
     ((iter_kernel [[(1 : ℚ), 2], [3, 4]] 1).map (fun t => t.1)).Nodup ∧
     (∀ k, k < 2 * 2 →
       ((iter_kernel [[(1 : ℚ), 2], [3, 4]] 1).map (fun t => t.1)).getD k (0, 0)
         = (k / 2, k % 2)) ∧
     (∀ p : Nat × Nat, p ∈ (iter_kernel [[(1 : ℚ), 2], [3, 4]] 1).map (fun t => t.1) ↔
       p.1 < 2 ∧ p.2 < 2)) :=
  ⟨⟨by decide, by decide⟩,
    iter_kernel_positions [[(1 : ℚ), 2], [3, 4]] 2 2 (by decide) (by decide) (by decide) 1⟩

/-! ### The mean-filter demo's hardcoded 1/9 factor (C6) -/

theorem matSum_smulMat (c : ℚ) (m : Mat ℚ) : matSum (smulMat c m) = c * matSum m := by
  induction m with
  | nil => simp [matSum, smulMat]
  | cons row rest ih =>
    simp only [matSum, smulMat, List.map_cons, List.sum_cons] at ih ⊢
    rw [List.sum_map_mul_left, ih, List.map_id']
    ring

theorem Rect_frameAt (image : Mat ℚ) {h w : Nat}
    (hr : Rect image h w) (hh : 1 ≤ h) (hw : 1 ≤ w) :
    ∀ k, k < h * w → Rect (frameAt image k) h w := by
  intro k
  induction k with
  | zero =>
    intro hk
    refine Rect_setMat hr _ _ _ ?_
    rw [tripleAt_eq image hr hh 0 hk]
    show 0 / w < h
    rw [Nat.zero_div]
    omega
  | succ k ih =>
    intro hk
    refine Rect_setMat (ih (by omega)) _ _ _ ?_
    rw [tripleAt_eq image hr hh (k + 1) hk]
    show (k + 1) / w < h
    exact Nat.div_lt_of_lt_mul (by rw [Nat.mul_comm]; exact hk)

theorem frameAt_succ (image : Mat ℚ) (k : Nat) :
    frameAt image (k + 1) = stepWrite image (frameAt image k) (k + 1) := rfl

theorem frameAt_write (image : Mat ℚ) {h w : Nat}
    (hr : Rect image h w) (hh : 1 ≤ h) (hw : 1 ≤ w) (k : Nat) (hk : k < h * w) :
    matGetD (frameAt image k) (k / w) (k % w) 0
      = matSum (smulMat mean_factor (tripleAt image k).2.2) := by
  have hbase : ∃ base, frameAt image k = stepWrite image base k ∧ Rect base h w := by
    cases k with
    | zero => exact ⟨image, rfl, hr⟩
    | succ k => exact ⟨frameAt image k, rfl, Rect_frameAt image hr hh hw k (by omega)⟩
  obtain ⟨base, heq, hb⟩ := hbase
  have hpos : (tripleAt image k).1 = (k / w, k % w) := by
    rw [tripleAt_eq image hr hh k hk]
  have hdl : k / w < h := Nat.div_lt_of_lt_mul (by rw [Nat.mul_comm]; exact hk)
  have hml : k % w < w := Nat.mod_lt _ (by omega)
  rw [heq, stepWrite, hpos]
  apply matGetD_setMat_self
  · rw [hb.1]; exact hdl
  · rw [hb.2 _ (getD_mem base _ [] (by rw [hb.1]; exact hdl))]; exact hml

/-- C6: `mean_filter_demo`'s reducer uses the hardcoded factor `1/9`, which
does not scale with the window area: at every step the value written at
position `(i, j)` is `(1/9) * sum(Window)`; at a corner of an all-ones 3 × 3
image the clamped window has only 4 elements, so the written value `4/9` is
not the window's mean `1`. -/
theorem mean_filter_hardcoded_factor (image : Mat ℚ) (h w : Nat)
    (hr : Rect image h w) (hh : 1 ≤ h) (hw : 1 ≤ w) (k : Nat) (hk : k < h * w) :
    mean_factor = 1 / 9 ∧
    matGetD (frameAt image k) (k / w) (k % w) 0
      = (1 / 9) * matSum (applySlices image (bounded_slice [k / w, k % w] [h, w] 1 0)) ∧
    matGetD (frameAt [[(1 : ℚ), 1, 1], [1, 1, 1], [1, 1, 1]] 0) 0 0 0 = 4 / 9 ∧
    matSum (applySlices [[(1 : ℚ), 1, 1], [1, 1, 1], [1, 1, 1]]
      (bounded_slice [0, 0] [3, 3] 1 0)) / 4 = 1 ∧
    (4 : ℚ) / 9 ≠ 1 := by
  have hone : Rect [[(1 : ℚ), 1, 1], [1, 1, 1], [1, 1, 1]] 3 3 := by decide
  have hcwin : applySlices [[(1 : ℚ), 1, 1], [1, 1, 1], [1, 1, 1]]
      (bounded_slice [0, 0] [3, 3] 1 0) = [[1, 1], [1, 1]] := rfl
  refine ⟨rfl, ?_, ?_, ?_, by norm_num⟩
  · rw [frameAt_write image hr hh hw k hk, tripleAt_eq image hr hh k hk,
      matSum_smulMat]
    norm_num [mean_factor]
  · rw [frameAt_write [[(1 : ℚ), 1, 1], [1, 1, 1], [1, 1, 1]] hone
      (by omega) (by omega) 0 (by omega)]
    rw [tripleAt_eq [[(1 : ℚ), 1, 1], [1, 1, 1], [1, 1, 1]] hone (by omega) 0 (by omega)]
    show matSum (smulMat mean_factor [[1, 1], [1, 1]]) = 4 / 9
    rw [matSum_smulMat]
    norm_num [matSum, mean_factor]
  · rw [hcwin]
    norm_num [matSum]

/-- Witness for C6 on a concrete 2 × 2 image at step 1. -/
theorem mean_filter_hardcoded_factor_witness :
    (Rect [[(2 : ℚ), 4], [6, 8]] 2 2 ∧ (1 : Nat) ≤ 2 ∧ 1 < 2 * 2) ∧
    (mean_factor = 1 / 9 ∧
     matGetD (frameAt [[(2 : ℚ), 4], [6, 8]] 1) (1 / 2) (1 % 2) 0
       = (1 / 9) * matSum (applySlices [[(2 : ℚ), 4], [6, 8]]
           (bounded_slice [1 / 2, 1 % 2] [2, 2] 1 0)) ∧
     matGetD (frameAt [[(1 : ℚ), 1, 1], [1, 1, 1], [1, 1, 1]] 0) 0 0 0 = 4 / 9 ∧
     matSum (applySlices [[(1 : ℚ), 1, 1], [1, 1, 1], [1, 1, 1]]
       (bounded_slice [0, 0] [3, 3] 1 0)) / 4 = 1 ∧
     (4 : ℚ) / 9 ≠ 1) :=
  ⟨⟨by decide, by decide, by decide⟩,
    mean_filter_hardcoded_factor [[(2 : ℚ), 4], [6, 8]] 2 2
      (by decide) (by decide) (by decide) 1 (by decide)⟩

/-! ### The step function's grow-only cache (C10) -/

theorem demoCache_length {Ov : Type} (image : Mat ℚ) (l2rgb : Mat ℚ → Mat ℚ → Ov)
    (n : Nat) : (demoCache image l2rgb n).length = n := by
  induction n with
  | zero => rfl
  | succ n ih => simp [demoCache, ih]

theorem demoCache_isPrefix {Ov : Type} (image : Mat ℚ) (l2rgb : Mat ℚ → Mat ℚ → Ov)
    {n m : Nat} (hnm : n ≤ m) :
    demoCache image l2rgb n <+: demoCache image l2rgb m := by
  induction m with
  | zero =>
    have hn0 : n = 0 := by omega
    subst hn0
    exact ⟨[], List.append_nil _⟩
  | succ m ih =>
    rcases Nat.lt_or_ge n (m + 1) with hlt | hge
    · exact (ih (by omega)).trans
        (show demoCache image l2rgb m <+: demoCache image l2rgb (m + 1) from
          ⟨_, rfl⟩)
    · have hn : n = m + 1 := by omega
      subst hn
      exact ⟨[], List.append_nil _⟩

theorem iter_kernel_drop (image : Mat ℚ) {h w : Nat}
    (hr : Rect image h w) (hh : 1 ≤ h) (n : Nat) (hn : n < h * w) :
    (iter_kernel image 1).drop n
      = tripleAt image n :: (iter_kernel image 1).drop (n + 1) := by
  have hlen := iter_kernel_length hr hh 1
  have hnl : n < (iter_kernel image 1).length := by omega
  rw [List.drop_eq_getElem_cons hnl]
  congr 1
  rw [tripleAt, getD_of_lt _ _ _ hnl]

theorem meanFilterLoop_exit {Ov : Type} (image : Mat ℚ)
    (l2rgb : Mat ℚ → Mat ℚ → Ov) (i_step fuel : Nat) (st : DemoState Ov)
    (hlt : i_step < st.2.length) :
    meanFilterLoop image l2rgb i_step fuel st = some st := by
  cases fuel with
  | zero => rfl
  | succ fuel =>
    simp only [meanFilterLoop]
    rw [if_pos hlt]

theorem meanFilterBody_canonical {Ov : Type} (image : Mat ℚ) {h w : Nat}
    (hr : Rect image h w) (hh : 1 ≤ h) (l2rgb : Mat ℚ → Mat ℚ → Ov)
    (k n : Nat) (hn : n < h * w) (h0 : k = 0 → n = 0) (h1 : k ≠ 0 → 1 ≤ n) :
    meanFilterBody image l2rgb k (demoState image l2rgb n)
      = some (demoState image l2rgb (n + 1)) := by
  by_cases hk : k = 0
  · have hn0 : n = 0 := h0 hk
    subst hk
    subst hn0
    simp only [meanFilterBody, demoState, demoCache, if_pos rfl]
    rw [iter_kernel_drop image hr hh 0 hn]
    rfl
  · have hn1 : 1 ≤ n := h1 hk
    obtain ⟨m, rfl⟩ : ∃ m, n = m + 1 := ⟨n - 1, by omega⟩
    simp only [meanFilterBody, demoState, if_neg hk]
    rw [show demoCache image l2rgb (m + 1)
        = demoCache image l2rgb m
            ++ [(l2rgb (tripleAt image m).2.1 image, frameAt image m)] from rfl,
      List.getLast?_concat, iter_kernel_drop image hr hh (m + 1) hn]
    rfl

theorem meanFilterLoop_builds {Ov : Type} (image : Mat ℚ) {h w : Nat}
    (hr : Rect image h w) (hh : 1 ≤ h) (l2rgb : Mat ℚ → Mat ℚ → Ov)
    (k : Nat) (hk : k < h * w) :
    ∀ fuel n, n ≤ k → (1 ≤ n ∨ k = 0) → k + 1 - n ≤ fuel →
      meanFilterLoop image l2rgb k fuel (demoState image l2rgb n)
        = some (demoState image l2rgb (k + 1)) := by
  intro fuel
  induction fuel with
  | zero =>
    intro n hn _ hf
    omega
  | succ fuel ih =>
    intro n hn hcase hf
    have hlen : ((demoState image l2rgb n).2).length = n :=
      demoCache_length image l2rgb n
    simp only [meanFilterLoop]
    rw [if_neg (by rw [hlen]; omega)]
    have h1 : k ≠ 0 → 1 ≤ n := by
      intro hk0
      rcases hcase with hc | hc
      · exact hc
      · exact absurd hc hk0
    rw [meanFilterBody_canonical image hr hh l2rgb k n (by omega)
      (fun hk0 => by omega) h1]
    show meanFilterLoop image l2rgb k fuel (demoState image l2rgb (n + 1)) = _
    by_cases hnk : n = k
    · subst hnk
      exact meanFilterLoop_exit image l2rgb n fuel _
        (by show n < (demoCache image l2rgb (n + 1)).length
            rw [demoCache_length]; omega)
    · exact ih (n + 1) (by omega) (Or.inl (by omega)) (by omega)

/-- C10: advancing the animation from frame `m-1` to frame `m` copies the
previous filtered image and overwrites exactly the pixel at the `m`-th
row-major position, leaving every other pixel equal; a call of the step
function with index `k` extends the cache from `n` to exactly
`max n (k+1)` entries, keeping the old entries as a prefix (never modifying
them), and revisiting a previously computed step (`k < n`) leaves the whole
closure state — cache and unconsumed generator suffix alike — unchanged. -/
theorem mean_filter_step_cache (Ov : Type) (image : Mat ℚ) (h w : Nat)
    (hr : Rect image h w) (hh : 1 ≤ h) (hw : 1 ≤ w)
    (l2rgb : Mat ℚ → Mat ℚ → Ov) (n k : Nat)
    (hn : n ≤ h * w) (hk : k < h * w) (hcase : 1 ≤ n ∨ k = 0) :
    mean_filter_demo Ov image = demoState image l2rgb 0 ∧
    mean_filter_step image l2rgb (demoState image l2rgb n) k
      = some (demoState image l2rgb (max n (k + 1))) ∧
    (demoCache image l2rgb (max n (k + 1))).length = max n (k + 1) ∧
    demoCache image l2rgb n <+: demoCache image l2rgb (max n (k + 1)) ∧
    (k < n → mean_filter_step image l2rgb (demoState image l2rgb n) k
      = some (demoState image l2rgb n)) ∧
    (∀ m, 1 ≤ m → m < h * w →
      frameAt image m
        = setMat (frameAt image (m - 1)) (m / w) (m % w)
            (matSum (smulMat mean_factor (tripleAt image m).2.2)) ∧
      (∀ r c, ¬(r = m / w ∧ c = m % w) →
        matGetD (frameAt image m) r c 0
          = matGetD (frameAt image (m - 1)) r c 0)) := by
  have hstep : mean_filter_step image l2rgb (demoState image l2rgb n) k
      = some (demoState image l2rgb (max n (k + 1))) := by
    by_cases hkn : k < n
    · rw [Nat.max_eq_left (by omega)]
      exact meanFilterLoop_exit image l2rgb k (k + 1) _
        (by show k < (demoCache image l2rgb n).length
            rw [demoCache_length]; omega)
    · rw [Nat.max_eq_right (by omega)]
      exact meanFilterLoop_builds image hr hh l2rgb k hk (k + 1) n (by omega)
        hcase (by omega)
  refine ⟨rfl, hstep, demoCache_length image l2rgb _,
    demoCache_isPrefix image l2rgb (by omega), ?_, ?_⟩
  · intro hkn
    rw [hstep, Nat.max_eq_left (by omega)]
  · intro m hm1 hmw
    obtain ⟨m', rfl⟩ : ∃ m', m = m' + 1 := ⟨m - 1, by omega⟩
    have hfr : frameAt image (m' + 1)
        = setMat (frameAt image (m' + 1 - 1)) ((m' + 1) / w) ((m' + 1) % w)
            (matSum (smulMat mean_factor (tripleAt image (m' + 1)).2.2)) := by
      rw [frameAt_succ, stepWrite, tripleAt_eq image hr hh (m' + 1) hmw,
        Nat.add_sub_cancel]
    refine ⟨hfr, ?_⟩
    intro r c hne
    rw [hfr, matGetD_setMat_ne _ _ _ _ _ _ _ hne]

/-- Witness for C10 on a concrete 2 × 2 image, cache size 1, step index 2. -/
theorem mean_filter_step_cache_witness :
    (Rect [[(1 : ℚ), 2], [3, 4]] 2 2 ∧ (1 : Nat) ≤ 2 ∧ 1 ≤ 2 * 2 ∧ 2 < 2 * 2 ∧
      ((1 : Nat) ≤ 1 ∨ (2 : Nat) = 0)) ∧
    (mean_filter_demo (Mat ℚ) [[(1 : ℚ), 2], [3, 4]]
        = demoState [[(1 : ℚ), 2], [3, 4]] (fun m _ => m) 0 ∧
     mean_filter_step [[(1 : ℚ), 2], [3, 4]] (fun m _ => m)
        (demoState [[(1 : ℚ), 2], [3, 4]] (fun m _ => m) 1) 2
      = some (demoState [[(1 : ℚ), 2], [3, 4]] (fun m _ => m) (max 1 (2 + 1))) ∧
     (demoCache [[(1 : ℚ), 2], [3, 4]] (fun m _ => m) (max 1 (2 + 1))).length
        = max 1 (2 + 1) ∧
     demoCache [[(1 : ℚ), 2], [3, 4]] (fun m _ => m) 1
        <+: demoCache [[(1 : ℚ), 2], [3, 4]] (fun m _ => m) (max 1 (2 + 1)) ∧
     (2 < 1 → mean_filter_step [[(1 : ℚ), 2], [3, 4]] (fun m _ => m)
        (demoState [[(1 : ℚ), 2], [3, 4]] (fun m _ => m) 1) 2
      = some (demoState [[(1 : ℚ), 2], [3, 4]] (fun m _ => m) 1)) ∧
     (∀ m, 1 ≤ m → m < 2 * 2 →
       frameAt [[(1 : ℚ), 2], [3, 4]] m
         = setMat (frameAt [[(1 : ℚ), 2], [3, 4]] (m - 1)) (m / 2) (m % 2)
             (matSum (smulMat mean_factor (tripleAt [[(1 : ℚ), 2], [3, 4]] m).2.2)) ∧
       (∀ r c, ¬(r = m / 2 ∧ c = m % 2) →
         matGetD (frameAt [[(1 : ℚ), 2], [3, 4]] m) r c 0
           = matGetD (frameAt [[(1 : ℚ), 2], [3, 4]] (m - 1)) r c 0))) :=
  ⟨⟨by decide, by decide, by decide, by decide, Or.inl (by decide)⟩,
    mean_filter_step_cache (Mat ℚ) [[(1 : ℚ), 2], [3, 4]] 2 2
      (by decide) (by decide) (by decide) (fun m _ => m) 1 2
      (by decide) (by decide) (Or.inl (by decide))⟩

/-! ### Store-level run: determinism and freshness (C7, C8) -/

theorem getD_append_left {α : Type} (l₁ l₂ : List α) (k : Nat) (d : α)
    (hk : k < l₁.length) : (l₁ ++ l₂).getD k d = l₁.getD k d := by
  rw [List.getD_eq_getElem?_getD, List.getElem?_append_left hk,
    ← List.getD_eq_getElem?_getD]

theorem getD_append_offset {α : Type} (l₁ l₂ : List α) (k : Nat) (d : α) :
    (l₁ ++ l₂).getD (l₁.length + k) d = l₂.getD k d := by
  rw [List.getD_eq_getElem?_getD, List.getElem?_append_right (by omega),
    Nat.add_sub_cancel_left, ← List.getD_eq_getElem?_getD]

theorem getD_set_ne {α : Type} (l : List α) (i j : Nat) (a d : α)
    (hij : i ≠ j) : (l.set i a).getD j d = l.getD j d := by
  rw [List.getD_eq_getElem?_getD, List.getElem?_set, if_neg hij,
    ← List.getD_eq_getElem?_getD]

theorem iterKernelStoreAux_eq (imgId size : Nat) :
    ∀ (ps : List (Nat × Nat)) (store : Store), imgId < store.length →
      iterKernelStoreAux imgId size ps store
        = (storeTriples imgId size (matHeight (store.getD imgId []))
             (matWidth (store.getD imgId [])) store.length ps,
           store ++ stepMasks (matHeight (store.getD imgId []))
             (matWidth (store.getD imgId [])) size ps) := by
  intro ps
  induction ps with
  | nil =>
    intro store _
    simp [iterKernelStoreAux, storeTriples, stepMasks]
  | cons p rest ih =>
    intro store hlt
    have hkeep : ∀ l : List (Mat ℚ), (store ++ l).getD imgId [] = store.getD imgId [] :=
      fun l => getD_append_left store l imgId [] hlt
    have hlt' : imgId < (store ++
        [setMat (zerosMat (matHeight (store.getD imgId []))
            (matWidth (store.getD imgId []))) p.1 p.2 1,
         setMat (greyDilation (setMat (zerosMat (matHeight (store.getD imgId []))
            (matWidth (store.getD imgId []))) p.1 p.2 1) (2 * size + 1)) p.1 p.2 2]).length := by
      rw [List.length_append]; omega
    simp only [iterKernelStoreAux]
    rw [ih _ hlt']
    rw [hkeep]
    simp only [storeTriples, stepMasks, List.length_append, List.length_cons,
      List.length_nil]
    rw [List.append_assoc]
    norm_num

theorem storeTriples_mem_base (imgId size h w : Nat) :
    ∀ (base : Nat) (ps : List (Nat × Nat)) t, t ∈ storeTriples imgId size h w base ps →
      t.2.2.base = imgId := by
  intro base ps
  induction ps generalizing base with
  | nil => intro t ht; cases ht
  | cons p rest ih =>
    intro t ht
    rcases List.mem_cons.1 ht with rfl | hmem
    · rfl
    · exact ih (base + 2) t hmem

theorem storeTriples_mem_id_bounds (imgId size h w : Nat) :
    ∀ (base : Nat) (ps : List (Nat × Nat)) t, t ∈ storeTriples imgId size h w base ps →
      base + 1 ≤ t.2.1 ∧ t.2.1 < base + 2 * ps.length := by
  intro base ps
  induction ps generalizing base with
  | nil => intro t ht; cases ht
  | cons p rest ih =>
    intro t ht
    rcases List.mem_cons.1 ht with rfl | hmem
    · simp only [List.length_cons]
      omega
    · have := ih (base + 2) t hmem
      simp only [List.length_cons]
      omega

theorem storeTriples_ids_pairwise (imgId size h w : Nat) :
    ∀ (base : Nat) (ps : List (Nat × Nat)),
      ((storeTriples imgId size h w base ps).map (fun t => t.2.1)).Pairwise (· < ·) := by
  intro base ps
  induction ps generalizing base with
  | nil => exact List.Pairwise.nil
  | cons p rest ih =>
    simp only [storeTriples, List.map_cons]
    refine List.Pairwise.cons ?_ (ih (base + 2))
    intro x hx
    obtain ⟨t, ht, rfl⟩ := List.mem_map.1 hx
    have := (storeTriples_mem_id_bounds imgId size h w (base + 2) rest t ht).1
    show base + 1 < t.2.1
    omega

theorem storeTriples_ids_nodup (imgId size h w base : Nat) (ps : List (Nat × Nat)) :
    ((storeTriples imgId size h w base ps).map (fun t => t.2.1)).Nodup :=
  (storeTriples_ids_pairwise imgId size h w base ps).imp Nat.ne_of_lt

theorem store_observe (imgId size h w : Nat) (img : Mat ℚ) :
    ∀ (ps : List (Nat × Nat)) (store : Store),
      store.getD imgId [] = img → imgId < store.length →
      (storeTriples imgId size h w store.length ps).map
          (observe (store ++ stepMasks h w size ps))
        = ps.map (fun p => (p, kernelMask h w size p.1 p.2,
            applySlices img (bounded_slice [p.1, p.2] [h, w] size 0))) := by
  intro ps
  induction ps with
  | nil => intro store _ _; rfl
  | cons p rest ih =>
    intro store himg hlt
    simp only [storeTriples, stepMasks, List.map_cons]
    have hhead : observe (store ++ setMat (zerosMat h w) p.1 p.2 1 ::
          setMat (greyDilation (setMat (zerosMat h w) p.1 p.2 1) (2 * size + 1))
            p.1 p.2 2 :: stepMasks h w size rest)
          (p, store.length + 1, ⟨imgId, bounded_slice [p.1, p.2] [h, w] size 0⟩)
        = (p, kernelMask h w size p.1 p.2,
           applySlices img (bounded_slice [p.1, p.2] [h, w] size 0)) := by
      simp only [observe, derefView]
      rw [getD_append_offset, getD_append_left _ _ _ _ hlt, himg]
      rfl
    have hsplit : store ++ (setMat (zerosMat h w) p.1 p.2 1 ::
          setMat (greyDilation (setMat (zerosMat h w) p.1 p.2 1) (2 * size + 1))
            p.1 p.2 2 :: stepMasks h w size rest)
        = (store ++ [setMat (zerosMat h w) p.1 p.2 1,
            setMat (greyDilation (setMat (zerosMat h w) p.1 p.2 1) (2 * size + 1))
              p.1 p.2 2]) ++ stepMasks h w size rest := by
      simp [List.append_assoc]
    have hlen2 : store.length + 2
        = (store ++ [setMat (zerosMat h w) p.1 p.2 1,
            setMat (greyDilation (setMat (zerosMat h w) p.1 p.2 1) (2 * size + 1))
              p.1 p.2 2]).length := by
      rw [List.length_append]; rfl
    have htail := ih (store ++ [setMat (zerosMat h w) p.1 p.2 1,
        setMat (greyDilation (setMat (zerosMat h w) p.1 p.2 1) (2 * size + 1))
          p.1 p.2 2])
      (by rw [getD_append_left _ _ _ _ hlt]; exact himg)
      (by rw [List.length_append]; omega)
    rw [hhead, hlen2, hsplit, htail]

theorem iterKernelStore_observe (store : Store) (imgId size : Nat)
    (hidx : imgId < store.length) :
    (iterKernelStore store imgId size).1.map
        (observe (iterKernelStore store imgId size).2)
      = iter_kernel (store.getD imgId []) size := by
  rw [iterKernelStore, iterKernelStoreAux_eq imgId size _ store hidx]
  rw [store_observe imgId size (matHeight (store.getD imgId []))
    (matWidth (store.getD imgId [])) (store.getD imgId []) _ store rfl hidx]
  rw [iter_kernel_eq_map, List.map_map]
  rfl

/-- C7: the iterator is deterministic — two store-level runs on the same
image values and the same `size`, from arbitrary allocation states, produce
observably identical sequences (same positions, value-identical masks,
value-identical windows), namely the pure `iter_kernel` sequence of the
image. -/
theorem iter_kernel_deterministic (s₁ s₂ : Store) (id₁ id₂ size : Nat)
    (h₁ : id₁ < s₁.length) (h₂ : id₂ < s₂.length)
    (heq : s₁.getD id₁ [] = s₂.getD id₂ []) :
    (iterKernelStore s₁ id₁ size).1.map (observe (iterKernelStore s₁ id₁ size).2)
      = (iterKernelStore s₂ id₂ size).1.map
          (observe (iterKernelStore s₂ id₂ size).2) ∧
    (iterKernelStore s₁ id₁ size).1.map (observe (iterKernelStore s₁ id₁ size).2)
      = iter_kernel (s₁.getD id₁ []) size := by
  have e₁ := iterKernelStore_observe s₁ id₁ size h₁
  have e₂ := iterKernelStore_observe s₂ id₂ size h₂
  rw [e₁, e₂, heq]
  exact ⟨rfl, heq ▸ rfl⟩

/-- Witness for C7: two different stores holding the same 1 × 2 image at
different ids. -/
theorem iter_kernel_deterministic_witness :
    ((0 : Nat) < ([[[(5 : ℚ), 6]]] : Store).length ∧
     (1 : Nat) < ([[[(9 : ℚ)]], [[(5 : ℚ), 6]]] : Store).length ∧
     ([[[(5 : ℚ), 6]]] : Store).getD 0 []
       = ([[[(9 : ℚ)]], [[(5 : ℚ), 6]]] : Store).getD 1 []) ∧
    ((iterKernelStore [[[(5 : ℚ), 6]]] 0 1).1.map
        (observe (iterKernelStore [[[(5 : ℚ), 6]]] 0 1).2)
      = (iterKernelStore [[[(9 : ℚ)]], [[(5 : ℚ), 6]]] 1 1).1.map
          (observe (iterKernelStore [[[(9 : ℚ)]], [[(5 : ℚ), 6]]] 1 1).2) ∧
     (iterKernelStore [[[(5 : ℚ), 6]]] 0 1).1.map
        (observe (iterKernelStore [[[(5 : ℚ), 6]]] 0 1).2)
      = iter_kernel (([[[(5 : ℚ), 6]]] : Store).getD 0 []) 1) :=
  ⟨⟨by decide, by decide, by decide⟩,
    iter_kernel_deterministic [[[(5 : ℚ), 6]]] [[[(9 : ℚ)]], [[(5 : ℚ), 6]]]
      0 1 1 (by decide) (by decide) (by decide)⟩

/-- C8: the store-level run never mutates the input image (or any other
pre-existing array); every yielded mask is a freshly allocated array, the
mask ids are pairwise distinct and distinct from the image id, every window
view is based at the image; and overwriting any yielded mask changes no
other yielded mask, no yielded window, and not the image. -/
theorem iter_kernel_no_mutation_fresh (store : Store) (imgId size : Nat)
    (hidx : imgId < store.length) :
    (∀ idv, idv < store.length →
      (iterKernelStore store imgId size).2.getD idv [] = store.getD idv []) ∧
    ((iterKernelStore store imgId size).1.map (fun t => t.2.1)).Nodup ∧
    (∀ t ∈ (iterKernelStore store imgId size).1,
      store.length ≤ t.2.1 ∧ t.2.1 ≠ imgId ∧ t.2.2.base = imgId) ∧
    (∀ t ∈ (iterKernelStore store imgId size).1, ∀ a : Mat ℚ,
      (∀ t' ∈ (iterKernelStore store imgId size).1, t'.2.1 ≠ t.2.1 →
        ((iterKernelStore store imgId size).2.set t.2.1 a).getD t'.2.1 []
          = (iterKernelStore store imgId size).2.getD t'.2.1 []) ∧
      (∀ t' ∈ (iterKernelStore store imgId size).1,
        derefView ((iterKernelStore store imgId size).2.set t.2.1 a) t'.2.2
          = derefView (iterKernelStore store imgId size).2 t'.2.2) ∧
      ((iterKernelStore store imgId size).2.set t.2.1 a).getD imgId []
        = store.getD imgId []) := by
  have hcf := iterKernelStoreAux_eq imgId size
    ((iter_pixels (store.getD imgId [])).map Prod.fst) store hidx
  simp only [iterKernelStore, hcf]
  refine ⟨?_, ?_, ?_, ?_⟩
  · intro idv hidv
    exact getD_append_left _ _ _ _ hidv
  · exact storeTriples_ids_nodup _ _ _ _ _ _
  · intro t ht
    have hb := storeTriples_mem_id_bounds _ _ _ _ _ _ t ht
    exact ⟨by omega, by omega, storeTriples_mem_base _ _ _ _ _ _ t ht⟩
  · intro t ht a
    have hbt := storeTriples_mem_id_bounds _ _ _ _ _ _ t ht
    refine ⟨?_, ?_, ?_⟩
    · intro t' ht' hne
      exact getD_set_ne _ _ _ _ _ (Ne.symm hne)
    · intro t' ht'
      have hb' := storeTriples_mem_base _ _ _ _ _ _ t' ht'
      simp only [derefView]
      rw [hb', getD_set_ne _ _ _ _ _ (by omega : t.2.1 ≠ imgId)]
    · rw [getD_set_ne _ _ _ _ _ (by omega : t.2.1 ≠ imgId),
        getD_append_left _ _ _ _ hidx]

/-- Witness for C8 on a store holding a single 2 × 2 image. -/
theorem iter_kernel_no_mutation_fresh_witness :
    ((0 : Nat) < ([[[(1 : ℚ), 2], [3, 4]]] : Store).length) ∧
    ((∀ idv, idv < ([[[(1 : ℚ), 2], [3, 4]]] : Store).length →
      (iterKernelStore [[[(1 : ℚ), 2], [3, 4]]] 0 1).2.getD idv []
        = ([[[(1 : ℚ), 2], [3, 4]]] : Store).getD idv []) ∧
    ((iterKernelStore [[[(1 : ℚ), 2], [3, 4]]] 0 1).1.map (fun t => t.2.1)).Nodup ∧
    (∀ t ∈ (iterKernelStore [[[(1 : ℚ), 2], [3, 4]]] 0 1).1,
      ([[[(1 : ℚ), 2], [3, 4]]] : Store).length ≤ t.2.1 ∧ t.2.1 ≠ 0 ∧
        t.2.2.base = 0) ∧
    (∀ t ∈ (iterKernelStore [[[(1 : ℚ), 2], [3, 4]]] 0 1).1, ∀ a : Mat ℚ,
      (∀ t' ∈ (iterKernelStore [[[(1 : ℚ), 2], [3, 4]]] 0 1).1, t'.2.1 ≠ t.2.1 →
        ((iterKernelStore [[[(1 : ℚ), 2], [3, 4]]] 0 1).2.set t.2.1 a).getD t'.2.1 []
          = (iterKernelStore [[[(1 : ℚ), 2], [3, 4]]] 0 1).2.getD t'.2.1 []) ∧
      (∀ t' ∈ (iterKernelStore [[[(1 : ℚ), 2], [3, 4]]] 0 1).1,
        derefView ((iterKernelStore [[[(1 : ℚ), 2], [3, 4]]] 0 1).2.set t.2.1 a) t'.2.2
          = derefView (iterKernelStore [[[(1 : ℚ), 2], [3, 4]]] 0 1).2 t'.2.2) ∧
      ((iterKernelStore [[[(1 : ℚ), 2], [3, 4]]] 0 1).2.set t.2.1 a).getD 0 []
        = ([[[(1 : ℚ), 2], [3, 4]]] : Store).getD 0 [])) :=
  ⟨by decide, iter_kernel_no_mutation_fresh [[[(1 : ℚ), 2], [3, 4]]] 0 1 (by decide)⟩

/-! ### `imshow_all`: one row, shared global intensity scale (C9) -/

theorem foldl_min_le_init (xs : List ℚ) : ∀ a : ℚ, xs.foldl min a ≤ a := by
  induction xs with
  | nil => intro a; exact le_refl a
  | cons x xs ih =>
    intro a
    exact le_trans (ih (min a x)) (min_le_left a x)

theorem foldl_min_le_mem (xs : List ℚ) : ∀ a x : ℚ, x ∈ xs → xs.foldl min a ≤ x := by
  induction xs with
  | nil => intro a x hx; cases hx
  | cons y ys ih =>
    intro a x hx
    rcases List.mem_cons.1 hx with rfl | hmem
    · exact le_trans (foldl_min_le_init ys (min a x)) (min_le_right a x)
    · exact ih (min a y) x hmem

theorem foldl_min_mem_or (xs : List ℚ) :
    ∀ a : ℚ, xs.foldl min a = a ∨ xs.foldl min a ∈ xs := by
  induction xs with
  | nil => intro a; exact Or.inl rfl
  | cons y ys ih =>
    intro a
    rcases ih (min a y) with heq | hmem
    · rcases min_choice a y with hc | hc
      · exact Or.inl (by rw [List.foldl_cons, heq, hc])
      · exact Or.inr (by rw [List.foldl_cons, heq, hc]; exact List.mem_cons_self y ys)
    · exact Or.inr (List.mem_cons_of_mem y hmem)

theorem foldl_max_ge_init (xs : List ℚ) : ∀ a : ℚ, a ≤ xs.foldl max a := by
  induction xs with
  | nil => intro a; exact le_refl a
  | cons x xs ih =>
    intro a
    exact le_trans (le_max_left a x) (ih (max a x))

theorem foldl_max_ge_mem (xs : List ℚ) : ∀ a x : ℚ, x ∈ xs → x ≤ xs.foldl max a := by
  induction xs with
  | nil => intro a x hx; cases hx
  | cons y ys ih =>
    intro a x hx
    rcases List.mem_cons.1 hx with rfl | hmem
    · exact le_trans (le_max_right a x) (foldl_max_ge_init ys (max a x))
    · exact ih (max a y) x hmem

theorem foldl_max_mem_or (xs : List ℚ) :
    ∀ a : ℚ, xs.foldl max a = a ∨ xs.foldl max a ∈ xs := by
  induction xs with
  | nil => intro a; exact Or.inl rfl
  | cons y ys ih =>
    intro a
    rcases ih (max a y) with heq | hmem
    · rcases max_choice a y with hc | hc
      · exact Or.inl (by rw [List.foldl_cons, heq, hc])
      · exact Or.inr (by rw [List.foldl_cons, heq, hc]; exact List.mem_cons_self y ys)
    · exact Or.inr (List.mem_cons_of_mem y hmem)

theorem listMinD_le (l : List ℚ) (x : ℚ) (hx : x ∈ l) : listMinD l ≤ x := by
  cases l with
  | nil => cases hx
  | cons y ys =>
    rcases List.mem_cons.1 hx with rfl | hmem
    · exact foldl_min_le_init ys x
    · exact foldl_min_le_mem ys y x hmem

theorem listMinD_mem (l : List ℚ) (hl : l ≠ []) : listMinD l ∈ l := by
  cases l with
  | nil => exact absurd rfl hl
  | cons y ys =>
    rcases foldl_min_mem_or ys y with heq | hmem
    · rw [listMinD, heq]; exact List.mem_cons_self y ys
    · exact List.mem_cons_of_mem y hmem

theorem listMaxD_ge (l : List ℚ) (x : ℚ) (hx : x ∈ l) : x ≤ listMaxD l := by
  cases l with
  | nil => cases hx
  | cons y ys =>
    rcases List.mem_cons.1 hx with rfl | hmem
    · exact foldl_max_ge_init ys x
    · exact foldl_max_ge_mem ys y x hmem

theorem listMaxD_mem (l : List ℚ) (hl : l ≠ []) : listMaxD l ∈ l := by
  cases l with
  | nil => exact absurd rfl hl
  | cons y ys =>
    rcases foldl_max_mem_or ys y with heq | hmem
    · rw [listMaxD, heq]; exact List.mem_cons_self y ys
    · exact List.mem_cons_of_mem y hmem

theorem matMin_le (m : Mat ℚ) (row : List ℚ) (x : ℚ)
    (hrow : row ∈ m) (hx : x ∈ row) : matMin m ≤ x :=
  listMinD_le _ _ (List.mem_flatMap.2 ⟨row, hrow, by simpa⟩)

theorem matMin_mem (m : Mat ℚ) (hm : m.flatMap id ≠ []) :
    ∃ row ∈ m, matMin m ∈ row := by
  have := listMinD_mem _ hm
  obtain ⟨row, hrow, hx⟩ := List.mem_flatMap.1 this
  exact ⟨row, hrow, hx⟩

theorem matMax_ge (m : Mat ℚ) (row : List ℚ) (x : ℚ)
    (hrow : row ∈ m) (hx : x ∈ row) : x ≤ matMax m :=
  listMaxD_ge _ _ (List.mem_flatMap.2 ⟨row, hrow, by simpa⟩)

theorem matMax_mem (m : Mat ℚ) (hm : m.flatMap id ≠ []) :
    ∃ row ∈ m, matMax m ∈ row := by
  have := listMaxD_mem _ hm
  obtain ⟨row, hrow, hx⟩ := List.mem_flatMap.1 this
  exact ⟨row, hrow, hx⟩

/-- C9: `imshow_all` lays its `N` converted input images out on a single row
(`nrows = 1`, `ncols = N`, one panel per image, in order), with a shared
intensity scale: `vmin` bounds every entry of every converted image from
below and is attained in one of them, dually for `vmax`; with `titles = none`
every panel's title is the empty string, and with given titles of matching
length the panels carry them in order. -/
theorem imshow_all_spec (conv : Mat ℚ → Mat ℚ) (images : List (Mat ℚ))
    (titles : Option (List String)) (hne : images ≠ [])
    (hflat : ∀ im ∈ images, (conv im).flatMap id ≠ [])
    (hlen : ∀ ts, titles = some ts → ts.length = images.length) :
    (imshow_all conv images titles).nrows = 1 ∧
    (imshow_all conv images titles).ncols = images.length ∧
    (imshow_all conv images titles).panels.length = images.length ∧
    (imshow_all conv images titles).panels.map Prod.fst = images.map conv ∧
    (titles = none →
      ∀ pan ∈ (imshow_all conv images titles).panels, pan.2 = emptyTitle) ∧
    (∀ ts, titles = some ts →
      (imshow_all conv images titles).panels.map Prod.snd = ts) ∧
    (∀ im ∈ images, ∀ row ∈ conv im, ∀ x ∈ row,
      (imshow_all conv images titles).vmin ≤ x ∧
      x ≤ (imshow_all conv images titles).vmax) ∧
    (∃ im ∈ images, ∃ row ∈ conv im,
      (imshow_all conv images titles).vmin ∈ row) ∧
    (∃ im ∈ images, ∃ row ∈ conv im,
      (imshow_all conv images titles).vmax ∈ row) := by
  have htlen : (match titles with
      | none => List.replicate (images.map conv).length emptyTitle
      | some ts => ts).length = images.length := by
    cases titles with
    | none => simp
    | some ts => exact hlen ts rfl
  simp only [imshow_all]
  refine ⟨by trivial, by simp, ?_, ?_, ?_, ?_, ?_, ?_, ?_⟩
  · rw [List.length_zip, htlen, List.length_map, Nat.min_self]
  · exact List.map_fst_zip _ _ (by rw [htlen, List.length_map])
  · intro ht pan hpan
    subst ht
    obtain ⟨p₁, p₂⟩ := pan
    have := (List.of_mem_zip hpan).2
    exact List.eq_of_mem_replicate this
  · intro ts ht
    subst ht
    exact List.map_snd_zip _ _ (by rw [htlen, List.length_map])
  · intro im him row hrow x hx
    constructor
    · exact le_trans
        (listMinD_le _ _ (List.mem_map_of_mem matMin
          (List.mem_map_of_mem conv him)))
        (matMin_le (conv im) row x hrow hx)
    · exact le_trans (matMax_ge (conv im) row x hrow hx)
        (listMaxD_ge _ _ (List.mem_map_of_mem matMax
          (List.mem_map_of_mem conv him)))
  · have hmapne : (images.map conv).map matMin ≠ [] := by
      simp only [ne_eq, List.map_eq_nil_iff]
      exact hne
    have hmem := listMinD_mem _ hmapne
    obtain ⟨imc, himc, heq⟩ := List.mem_map.1 hmem
    obtain ⟨im, him, rfl⟩ := List.mem_map.1 himc
    obtain ⟨row, hrow, hmm⟩ := matMin_mem (conv im) (hflat im him)
    exact ⟨im, him, row, hrow, by rw [← heq]; exact hmm⟩
  · have hmapne : (images.map conv).map matMax ≠ [] := by
      simp only [ne_eq, List.map_eq_nil_iff]
      exact hne
    have hmem := listMaxD_mem _ hmapne
    obtain ⟨imc, himc, heq⟩ := List.mem_map.1 hmem
    obtain ⟨im, him, rfl⟩ := List.mem_map.1 himc
    obtain ⟨row, hrow, hmm⟩ := matMax_mem (conv im) (hflat im him)
    exact ⟨im, him, row, hrow, by rw [← heq]; exact hmm⟩

/-- Witness for C9: two concrete images, default titles, identity
conversion. -/
theorem imshow_all_spec_witness :
    (([[(0 : ℚ), 5]], [[(7 : ℚ)], [2]]) ≠ ([], []) ∧
     ([[[(0 : ℚ), 5]], [[(7 : ℚ)], [2]]] : List (Mat ℚ)) ≠ [] ∧
     (∀ im ∈ ([[[(0 : ℚ), 5]], [[(7 : ℚ)], [2]]] : List (Mat ℚ)),
       ((fun m => m) im).flatMap id ≠ []) ∧
     (∀ ts : List String, (none : Option (List String)) = some ts →
       ts.length = ([[[(0 : ℚ), 5]], [[(7 : ℚ)], [2]]] : List (Mat ℚ)).length)) ∧
    ((imshow_all (fun m => m) [[[(0 : ℚ), 5]], [[(7 : ℚ)], [2]]] none).nrows = 1 ∧
     (imshow_all (fun m => m) [[[(0 : ℚ), 5]], [[(7 : ℚ)], [2]]] none).ncols
       = ([[[(0 : ℚ), 5]], [[(7 : ℚ)], [2]]] : List (Mat ℚ)).length ∧
     (imshow_all (fun m => m) [[[(0 : ℚ), 5]], [[(7 : ℚ)], [2]]] none).panels.length
       = ([[[(0 : ℚ), 5]], [[(7 : ℚ)], [2]]] : List (Mat ℚ)).length ∧
     (imshow_all (fun m => m) [[[(0 : ℚ), 5]], [[(7 : ℚ)], [2]]] none).panels.map
         Prod.fst
       = ([[[(0 : ℚ), 5]], [[(7 : ℚ)], [2]]] : List (Mat ℚ)).map (fun m => m) ∧
     ((none : Option (List String)) = none →
       ∀ pan ∈ (imshow_all (fun m => m) [[[(0 : ℚ), 5]], [[(7 : ℚ)], [2]]]
           none).panels, pan.2 = emptyTitle) ∧
     (∀ ts : List String, (none : Option (List String)) = some ts →
       (imshow_all (fun m => m) [[[(0 : ℚ), 5]], [[(7 : ℚ)], [2]]]
           none).panels.map Prod.snd = ts) ∧
     (∀ im ∈ ([[[(0 : ℚ), 5]], [[(7 : ℚ)], [2]]] : List (Mat ℚ)),
       ∀ row ∈ (fun m => m) im, ∀ x ∈ row,
       (imshow_all (fun m => m) [[[(0 : ℚ), 5]], [[(7 : ℚ)], [2]]] none).vmin ≤ x ∧
       x ≤ (imshow_all (fun m => m) [[[(0 : ℚ), 5]], [[(7 : ℚ)], [2]]] none).vmax) ∧
     (∃ im ∈ ([[[(0 : ℚ), 5]], [[(7 : ℚ)], [2]]] : List (Mat ℚ)),
       ∃ row ∈ (fun m => m) im,
       (imshow_all (fun m => m) [[[(0 : ℚ), 5]], [[(7 : ℚ)], [2]]] none).vmin ∈ row) ∧
     (∃ im ∈ ([[[(0 : ℚ), 5]], [[(7 : ℚ)], [2]]] : List (Mat ℚ)),
       ∃ row ∈ (fun m => m) im,
       (imshow_all (fun m => m) [[[(0 : ℚ), 5]], [[(7 : ℚ)], [2]]] none).vmax ∈ row)) :=
  ⟨⟨by decide, by decide, by decide, fun ts h => by cases h⟩,
    imshow_all_spec (fun m => m) [[[(0 : ℚ), 5]], [[(7 : ℚ)], [2]]] none
      (by decide) (by decide) (fun ts h => by cases h)⟩

end VisionLab
